import Mathlib

/-!
Verification of the contract-management document subsystem (`src/app.py`).

The development shallowly embeds the data model (SQLite tables as lists of
rows), the mutating endpoints (`document_new`, `upsert_tags`, `record_audit`,
`contract_new`, `contract_edit`, `vendor_new`, `vendor_edit`), the download
route (`document_download`, whose path validation is werkzeug's `safe_join`
over `posixpath.normpath`), and the content hasher (`hashlib.sha256` →
`sha256hex`).  Machine integers are `Nat` with explicit `% 2^32` where the
hash computation overflows; byte strings are `List Nat`.
-/

set_option maxRecDepth 8000

namespace ContractMgmt

/-! ## Content hasher: SHA-256 (`hashlib.sha256(...).hexdigest()`) -/

/-- Reduce to a 32-bit word. -/
def w32 (n : Nat) : Nat := n % 4294967296

/-- Right rotation of a 32-bit word. -/
def rotr (n x : Nat) : Nat := w32 ((x >>> n) ||| (x <<< (32 - n)))

/-- Round constants of SHA-256 (FIPS 180-4), one row of the table per group. -/
def K256 : List Nat :=
  [0x428a2f98, 0x71374491, 0xb5c0fbcf, 0xe9b5dba5,
   0x3956c25b, 0x59f111f1, 0x923f82a4, 0xab1c5ed5] ++
  [0xd807aa98, 0x12835b01, 0x243185be, 0x550c7dc3,
   0x72be5d74, 0x80deb1fe, 0x9bdc06a7, 0xc19bf174] ++
  [0xe49b69c1, 0xefbe4786, 0x0fc19dc6, 0x240ca1cc,
   0x2de92c6f, 0x4a7484aa, 0x5cb0a9dc, 0x76f988da] ++
  [0x983e5152, 0xa831c66d, 0xb00327c8, 0xbf597fc7,
   0xc6e00bf3, 0xd5a79147, 0x06ca6351, 0x14292967] ++
  [0x27b70a85, 0x2e1b2138, 0x4d2c6dfc, 0x53380d13,
   0x650a7354, 0x766a0abb, 0x81c2c92e, 0x92722c85] ++
  [0xa2bfe8a1, 0xa81a664b, 0xc24b8b70, 0xc76c51a3,
   0xd192e819, 0xd6990624, 0xf40e3585, 0x106aa070] ++
  [0x19a4c116, 0x1e376c08, 0x2748774c, 0x34b0bcb5,
   0x391c0cb3, 0x4ed8aa4a, 0x5b9cca4f, 0x682e6ff3] ++
  [0x748f82ee, 0x78a5636f, 0x84c87814, 0x8cc70208,
   0x90befffa, 0xa4506ceb, 0xbef9a3f7, 0xc67178f2]

/-- Initial hash state of SHA-256. -/
def H256 : List Nat :=
  [0x6a09e667, 0xbb67ae85, 0x3c6ef372, 0xa54ff53a, 0x510e527f, 0x9b05688c, 0x1f83d9ab, 0x5be0cd19]

/-- Big-endian bytes of a value, fixed width. -/
def beBytes (count val : Nat) : List Nat :=
  (List.range count).map (fun i => (val >>> (8 * (count - 1 - i))) % 256)

/-- SHA-256 padding: append `0x80`, zeros, then the 64-bit big-endian bit length. -/
def padMessage (msg : List Nat) : List Nat :=
  let L := msg.length
  let zeros := (120 - ((L + 1) % 64)) % 64
  msg ++ [0x80] ++ List.replicate zeros 0 ++ beBytes 8 (8 * L)

/-- Split a byte list into 64-byte chunks (fuel-based so it reduces in the kernel). -/
def chunksAux : Nat → List Nat → List (List Nat)
  | 0, _ => []
  | _ + 1, [] => []
  | fuel + 1, l@(_ :: _) => l.take 64 :: chunksAux fuel (l.drop 64)

/-- The 64-byte chunks of a padded message. -/
def chunks64 (l : List Nat) : List (List Nat) := chunksAux l.length l

/-- Assemble the sixteen initial 32-bit message words from a 64-byte chunk. -/
def chunkWords (chunk : List Nat) : List Nat :=
  (List.range 16).map (fun i =>
    (chunk.getD (4 * i) 0 % 256) <<< 24 + (chunk.getD (4 * i + 1) 0 % 256) <<< 16 +
    (chunk.getD (4 * i + 2) 0 % 256) <<< 8 + (chunk.getD (4 * i + 3) 0 % 256))

/-- One step of the message-schedule extension. -/
def scheduleStep (ws : List Nat) : List Nat :=
  let g (j : Nat) : Nat := ws.getD (ws.length - j) 0
  let s0 := (rotr 7 (g 15)) ^^^ (rotr 18 (g 15)) ^^^ ((g 15) >>> 3)
  let s1 := (rotr 17 (g 2)) ^^^ (rotr 19 (g 2)) ^^^ ((g 2) >>> 10)
  ws ++ [w32 (g 16 + s0 + g 7 + s1)]

/-- Full 64-word message schedule of a chunk. -/
def schedule (chunk : List Nat) : List Nat :=
  (List.range 48).foldl (fun ws _ => scheduleStep ws) (chunkWords chunk)

/-- Compression of one chunk into the running hash state. -/
def compressChunk (H : List Nat) (chunk : List Nat) : List Nat :=
  let init := (H.getD 0 0, H.getD 1 0, H.getD 2 0, H.getD 3 0,
               H.getD 4 0, H.getD 5 0, H.getD 6 0, H.getD 7 0)
  let fin := ((schedule chunk).zip K256).foldl
    (fun st wk =>
      match st, wk with
      | (a, b, c, d, e, f, g, h), (w, k) =>
        let S1 := (rotr 6 e) ^^^ (rotr 11 e) ^^^ (rotr 25 e)
        let ch := (e &&& f) ^^^ ((e ^^^ 0xffffffff) &&& g)
        let t1 := w32 (h + S1 + ch + k + w)
        let S0 := (rotr 2 a) ^^^ (rotr 13 a) ^^^ (rotr 22 a)
        let mj := (a &&& b) ^^^ (a &&& c) ^^^ (b &&& c)
        let t2 := w32 (S0 + mj)
        (w32 (t1 + t2), a, b, c, w32 (d + t1), e, f, g))
    init
  [w32 (H.getD 0 0 + fin.1), w32 (H.getD 1 0 + fin.2.1), w32 (H.getD 2 0 + fin.2.2.1),
   w32 (H.getD 3 0 + fin.2.2.2.1), w32 (H.getD 4 0 + fin.2.2.2.2.1),
   w32 (H.getD 5 0 + fin.2.2.2.2.2.1), w32 (H.getD 6 0 + fin.2.2.2.2.2.2.1),
   w32 (H.getD 7 0 + fin.2.2.2.2.2.2.2)]

/-- The eight final 32-bit hash words of a byte message. -/
def sha256Words (msg : List Nat) : List Nat :=
  (chunks64 (padMessage msg)).foldl compressChunk H256

/-- Lower-case hexadecimal digit. -/
def hexDigitChar (n : Nat) : Char :=
  if n < 10 then Char.ofNat (48 + n) else Char.ofNat (87 + n)

/-- Eight hex characters of a 32-bit word, most significant nibble first. -/
def hex8 (w : Nat) : List Char :=
  (List.range 8).map (fun i => hexDigitChar ((w >>> (4 * (7 - i))) % 16))

/-- Hexadecimal SHA-256 digest of a byte list, as `hashlib.sha256(...).hexdigest()`. -/
def sha256hex (msg : List Nat) : String :=
  ⟨((sha256Words msg).map hex8).flatten⟩

/-! ## Path handling: `posixpath.normpath` and werkzeug's `safe_join`

The download route is `send_from_directory(UPLOAD_FOLDER, filename)`, whose
validation is werkzeug's `safe_join(directory, filename)`: normalize the
requested name with `posixpath.normpath`, then reject it when it is absolute,
equals `".."`, or starts with `"../"`; otherwise serve the file at
`posixpath.join(directory, normalized)`.  Strings are handled as `List Char`
(`String.data`) so the reasoning is by plain list induction. -/

/-- Split a character list on a separator, as Python's `str.split`. -/
def splitChar (sep : Char) : List Char → List (List Char)
  | [] => [[]]
  | c :: rest =>
    match splitChar sep rest with
    | [] => [[]]
    | h :: t => if c = sep then [] :: h :: t else (c :: h) :: t

/-- Join character lists with a separator, as Python's `sep.join`. -/
def joinChar (sep : Char) : List (List Char) → List Char
  | [] => []
  | [x] => x
  | x :: y :: xs => x ++ sep :: joinChar sep (y :: xs)

/-- The test `os.path.isabs`: the path begins with a slash. -/
def isAbsL (l : List Char) : Bool := l.head? == some '/'

/-- Whether a POSIX path begins with exactly two slashes (kept by `normpath`). -/
def isDslashL (l : List Char) : Bool :=
  ['/', '/'].isPrefixOf l && !(['/', '/', '/'].isPrefixOf l)

/-- One component step of `posixpath.normpath`: skip empty and `"."`,
collapse `".."` against the accumulated components (held reversed). -/
def normStep (isAbs : Bool) (acc : List (List Char)) (comp : List Char) : List (List Char) :=
  if comp = [] ∨ comp = ['.'] then acc
  else if comp ≠ ['.', '.'] ∨ (¬ isAbs ∧ acc = []) ∨ acc.head? = some ['.', '.'] then comp :: acc
  else
    match acc with
    | [] => []
    | _ :: t => t

/-- The normalized component list of a path, in order. -/
def normComps (l : List Char) : List (List Char) :=
  ((splitChar '/' l).foldl (normStep (isAbsL l)) []).reverse

/-- `posixpath.normpath` on character lists. -/
def normpathL (l : List Char) : List Char :=
  if l = [] then ['.']
  else
    let joined := joinChar '/' (normComps l)
    let pre : List Char := if isAbsL l then (if isDslashL l then ['/', '/'] else ['/']) else []
    let p := pre ++ joined
    if p = [] then ['.'] else p

/-- The normalized form `safe_join` compares against: the empty name is kept
as is, any other name is passed through `posixpath.normpath`. -/
def normSuffixL (l : List Char) : List Char :=
  if l = [] then [] else normpathL l

/-- String-level normalized suffix. -/
def normSuffix (name : String) : List Char := normSuffixL name.data

/-- Werkzeug's `safe_join(directory, filename)` on character lists: reject the
normalized name when it is absolute, equals `".."` or starts with `"../"`;
otherwise `posixpath.join` it under the directory. -/
def safeJoinL (root l : List Char) : Option (List Char) :=
  let n := normSuffixL l
  if isAbsL n = true ∨ n = ['.', '.'] ∨ ['.', '.', '/'].isPrefixOf n then none
  else some (root ++ '/' :: n)

/-- String-level `safe_join` under a directory. -/
def safe_join (root name : String) : Option String :=
  (safeJoinL root.data name.data).map (fun l => (⟨l⟩ : String))

/-! ## Python string helpers -/

/-- Whitespace stripped by Python's `str.strip()` (ASCII whitespace). -/
def isPySpace (c : Char) : Bool :=
  c = ' ' ∨ c = '\t' ∨ c = '\n' ∨ c = '\r' ∨ c = '\x0b' ∨ c = '\x0c'

/-- Python's `str.strip()`: drop leading and trailing whitespace. -/
def pyStrip (s : String) : String :=
  ⟨((s.data.dropWhile isPySpace).reverse.dropWhile isPySpace).reverse⟩

/-- Decimal digits of a natural number (fuel-based so it reduces in the kernel);
models Python's `str(n)` for the f-string storage names. -/
def natDigitsAux : Nat → Nat → List Char
  | 0, _ => []
  | fuel + 1, n =>
    if n < 10 then [Char.ofNat (48 + n)]
    else natDigitsAux fuel (n / 10) ++ [Char.ofNat (48 + n % 10)]

/-- Decimal digit characters of a natural number. -/
def natDecimal (n : Nat) : List Char := natDigitsAux (n + 1) n

/-- Decimal string of a natural number. -/
def natRepr (n : Nat) : String := ⟨natDecimal n⟩

/-- The tag field parsing of the contract forms:
`[tag for tag in form.get("tags", "").split(",") if tag.strip()]`. -/
def parseTagField (raw : String) : List String :=
  ((splitChar ',' raw.data).map (fun l => (⟨l⟩ : String))).filter
    (fun t => !(pyStrip t == ""))

/-- The `form.get("actor") or "system"` default: an empty actor is falsy. -/
def orSystem (actor : String) : String := if actor = "" then "system" else actor

/-! ## Data model (`init_db` tables as lists of rows) -/

/-- A row of the `documents` table. -/
structure Doc where
  id : Nat
  contract_id : Nat
  filename : String
  storage_path : String
  version : Nat
  uploaded_at : String
  sha256 : String
deriving DecidableEq

/-- A row of the `audit_events` table. -/
structure AuditEvent where
  id : Nat
  contract_id : Option Nat
  action : String
  actor : String
  created_at : String
  details : String
deriving DecidableEq

/-- A row of the `tags` table (`name` is UNIQUE). -/
structure Tag where
  id : Nat
  name : String
deriving DecidableEq

/-- A row of the `contracts` table. -/
structure Contract where
  id : Nat
  title : String
  vendor_id : Option Nat
  owner : String
  state : String
  effective_date : Option String
  termination_date : Option String
  notice_period_days : Option Nat
  renewal_intent : Option String
  sensitive : Bool
  created_at : String
  updated_at : String
deriving DecidableEq

/-- A row of the `vendors` table. -/
structure Vendor where
  id : Nat
  name : String
  risk_profile : Option String
  status : Option String
  created_at : String
deriving DecidableEq

/-- The configured upload root (`app.config["UPLOAD_FOLDER"]`). -/
def UPLOAD_FOLDER : String := "uploads"

/-- The whole persistent state: database tables, upload directory (file path ↦
bytes, most recent write first), and the AUTOINCREMENT counters. -/
structure St where
  contracts : List Contract
  vendors : List Vendor
  documents : List Doc
  tags : List Tag
  contract_tags : List (Nat × Nat)
  audit_events : List AuditEvent
  files : List (String × List Nat)
  nextContractId : Nat
  nextVendorId : Nat
  nextDocId : Nat
  nextTagId : Nat
  nextAuditId : Nat
deriving DecidableEq

/-- The freshly initialized state (`init_db` on an empty database). -/
def initSt : St :=
  ⟨[], [], [], [], [], [], [], 1, 1, 1, 1, 1⟩

/-- Read a file of the upload directory (most recent write wins). -/
def lookupFile (files : List (String × List Nat)) (p : String) : Option (List Nat) :=
  (files.find? (fun e => e.fst == p)).map Prod.snd

/-! ## Operations -/

/-- `record_audit`: insert one row into `audit_events`. -/
def record_audit (cid : Option Nat) (action actor ts details : String) (s : St) : St :=
  { s with
    audit_events := s.audit_events ++ [⟨s.nextAuditId, cid, action, actor, ts, details⟩],
    nextAuditId := s.nextAuditId + 1 }

/-- The versions recorded for one contract, in insertion order
(`SELECT version FROM documents WHERE contract_id = ?`). -/
def versionsFor (c : Nat) (docs : List Doc) : List Nat :=
  (docs.filter (fun d => d.contract_id == c)).map Doc.version

/-- `COALESCE(MAX(version), 0)` over one contract's documents. -/
def maxVersion (c : Nat) (docs : List Doc) : Nat :=
  (versionsFor c docs).foldl max 0

/-- The derived storage name `f"{contract_id}_{version}_{filename}"`. -/
def storedName (c v : Nat) (fname : String) : String :=
  natRepr c ++ "_" ++ natRepr v ++ "_" ++ fname

/-- The version query of `document_new`:
`SELECT COALESCE(MAX(version), 0) + 1 ... WHERE contract_id = ?`. -/
def uploadRead (c : Nat) (s : St) : Nat := maxVersion c s.documents + 1

/-- The write phase of `document_new` after the version has been read: save the
file, hash the bytes read back from storage, insert the `documents` row, then
`record_audit`.  `dts` and `ats` are the two `now_ts()` calls. -/
def uploadInsert (c : Nat) (fname : String) (content : List Nat)
    (actor dts ats : String) (version : Nat) (s : St) : St :=
  let stored := storedName c version fname
  let path := UPLOAD_FOLDER ++ "/" ++ stored
  let files2 := (path, content) :: s.files
  let sha := sha256hex ((lookupFile files2 path).getD [])
  let s4 := { s with
    files := files2,
    documents := s.documents ++ [⟨s.nextDocId, c, fname, stored, version, dts, sha⟩],
    nextDocId := s.nextDocId + 1 }
  record_audit (some c) "Uploaded document" actor ats
    ("Document " ++ fname ++ " v" ++ natRepr version) s4

/-- The POST success path of `document_new`: read the next version, save the
bytes, hash what was stored, insert the `documents` row, record the audit
event.  `fname` is the name after `secure_filename`. -/
def document_new (c : Nat) (fname : String) (content : List Nat)
    (actor dts ats : String) (s : St) : St :=
  uploadInsert c fname content actor dts ats (uploadRead c s) s

/-- `document_new` cut off after `k` of its five steps (1 read version, 2 save
file, 3 hash, 4 insert row — committed by its own `with get_db()` block,
5 record audit — committed by another): the state visible when an exception
aborts the request after step `k`.  Each DB block commits on exit, so the
effects of completed steps stay. -/
def document_new_upto (k : Nat) (c : Nat) (fname : String) (content : List Nat)
    (actor dts ats : String) (s : St) : St :=
  if k ≤ 1 then s
  else
    let version := uploadRead c s
    let stored := storedName c version fname
    let path := UPLOAD_FOLDER ++ "/" ++ stored
    let files2 := (path, content) :: s.files
    let s2 := { s with files := files2 }
    if k ≤ 3 then s2
    else
      let sha := sha256hex ((lookupFile files2 path).getD [])
      let s4 := { s2 with
        documents := s2.documents ++ [⟨s2.nextDocId, c, fname, stored, version, dts, sha⟩],
        nextDocId := s2.nextDocId + 1 }
      if k ≤ 4 then s4
      else record_audit (some c) "Uploaded document" actor ats
        ("Document " ++ fname ++ " v" ++ natRepr version) s4

/-- One iteration of the `upsert_tags` loop body for a raw tag name: strip it,
skip it when empty, `INSERT OR IGNORE` the vocabulary row, look the id up, and
`INSERT OR IGNORE` the association. -/
def upsertStep (c : Nat) (s : St) (name : String) : St :=
  let cleaned := pyStrip name
  if cleaned = "" then s
  else
    let s1 :=
      if s.tags.any (fun t => t.name == cleaned) then s
      else { s with tags := s.tags ++ [⟨s.nextTagId, cleaned⟩], nextTagId := s.nextTagId + 1 }
    let tid := ((s1.tags.find? (fun t => t.name == cleaned)).getD ⟨0, ""⟩).id
    if s1.contract_tags.contains (c, tid) then s1
    else { s1 with contract_tags := s1.contract_tags ++ [(c, tid)] }

/-- `upsert_tags`: delete the contract's associations, then process each name. -/
def upsert_tags (c : Nat) (tag_names : List String) (s : St) : St :=
  tag_names.foldl (upsertStep c)
    { s with contract_tags := s.contract_tags.filter (fun p => !(p.fst == c)) }

/-- Lexicographic byte comparison of character lists (SQLite TEXT ordering). -/
def charsLe : List Char → List Char → Bool
  | [], _ => true
  | _ :: _, [] => false
  | a :: as, b :: bs => if a = b then charsLe as bs else decide (a.toNat < b.toNat)

/-- Lexicographic comparison of strings. -/
def strLeB (a b : String) : Bool := charsLe a.data b.data

/-- Insert into a list sorted by `le`. -/
def insertLe (le : α → α → Bool) (x : α) : List α → List α
  | [] => [x]
  | y :: ys => if le x y then x :: y :: ys else y :: insertLe le x ys

/-- Insertion sort by `le`. -/
def sortByLe (le : α → α → Bool) : List α → List α
  | [] => []
  | x :: xs => insertLe le x (sortByLe le xs)

/-- The names produced by the `get_contract_tags` join, in table order:
`SELECT tags.name FROM tags JOIN contract_tags ON contract_tags.tag_id =
tags.id WHERE contract_tags.contract_id = ?`. -/
def joinNames (c : Nat) (s : St) : List String :=
  (s.contract_tags.filter (fun p => p.fst == c)).flatMap
    (fun p => (s.tags.filter (fun t => t.id == p.snd)).map Tag.name)

/-- `get_contract_tags`: the join result ordered by `tags.name`. -/
def get_contract_tags (c : Nat) (s : St) : List String :=
  sortByLe strLeB (joinNames c s)

/-- The vocabulary (`SELECT name FROM tags`). -/
def tagNames (s : St) : List String := s.tags.map Tag.name

/-- The POST path of `contract_new` (form fields passed positionally; `tagsRaw`
is the raw comma-separated tag field, `actor` the raw actor field). -/
def contract_new (title : String) (vendor_id : Option Nat) (owner state : String)
    (effective_date termination_date : Option String) (notice_period_days : Option Nat)
    (renewal_intent : Option String) (sensitive : Bool) (tagsRaw actor ts : String)
    (s : St) : St :=
  let cid := s.nextContractId
  let s1 := { s with
    contracts := s.contracts ++
      [⟨cid, title, vendor_id, owner, state, effective_date, termination_date,
        notice_period_days, renewal_intent, sensitive, ts, ts⟩],
    nextContractId := cid + 1 }
  let s2 := upsert_tags cid (parseTagField tagsRaw) s1
  record_audit (some cid) "Created contract" (orSystem actor) ts "" s2

/-- The POST success path of `contract_edit`: update the row, replace the tag
set, record one audit event. -/
def contract_edit (cid : Nat) (title : String) (vendor_id : Option Nat)
    (owner state : String) (effective_date termination_date : Option String)
    (notice_period_days : Option Nat) (renewal_intent : Option String)
    (sensitive : Bool) (tagsRaw actor ts : String) (s : St) : St :=
  let s1 := { s with
    contracts := s.contracts.map (fun row =>
      if row.id == cid then
        { row with
          title := title, vendor_id := vendor_id, owner := owner, state := state,
          effective_date := effective_date, termination_date := termination_date,
          notice_period_days := notice_period_days, renewal_intent := renewal_intent,
          sensitive := sensitive, updated_at := ts }
      else row) }
  let s2 := upsert_tags cid (parseTagField tagsRaw) s1
  record_audit (some cid) "Updated contract" (orSystem actor) ts "" s2

/-- The POST path of `vendor_new`. -/
def vendor_new (name : String) (risk_profile status : Option String)
    (actor ts : String) (s : St) : St :=
  let vid := s.nextVendorId
  let s1 := { s with
    vendors := s.vendors ++ [⟨vid, name, risk_profile, status, ts⟩],
    nextVendorId := vid + 1 }
  record_audit none "Created vendor" (orSystem actor) ts ("Vendor " ++ natRepr vid) s1

/-- The POST success path of `vendor_edit`. -/
def vendor_edit (vid : Nat) (name : String) (risk_profile status : Option String)
    (actor ts : String) (s : St) : St :=
  let s1 := { s with
    vendors := s.vendors.map (fun row =>
      if row.id == vid then
        { row with
          name := name, risk_profile := risk_profile, status := status }
      else row) }
  record_audit none "Updated vendor" (orSystem actor) ts ("Vendor " ++ natRepr vid) s1

/-- `document_download`: `send_from_directory(UPLOAD_FOLDER, filename)` —
validate the requested name with `safe_join` against the upload root and read
the file at the joined path, 404 (`none`) otherwise. -/
def document_download (s : St) (name : String) : Option (List Nat) :=
  (safe_join UPLOAD_FOLDER name).bind (lookupFile s.files)

/-- The audit rows of one contract
(`SELECT * FROM audit_events WHERE contract_id = ?`). -/
def auditFor (c : Nat) (evs : List AuditEvent) : List AuditEvent :=
  evs.filter (fun e => e.contract_id == some c)

/-- The ordering contract of `ORDER BY created_at DESC`: an output the query
may produce is a permutation of the rows that is pairwise nonincreasing in
`created_at`.  SQLite fixes nothing further — in particular no order among
rows with equal `created_at`. -/
def auditOrderValid (evs out : List AuditEvent) : Prop :=
  out.Perm evs ∧ out.Pairwise (fun a b => strLeB b.created_at a.created_at = true)

/-- An executable newest-first listing: insertion sort by `created_at`
descending. -/
def sortAuditDesc (evs : List AuditEvent) : List AuditEvent :=
  sortByLe (fun a b => strLeB b.created_at a.created_at) evs

/-! ## Request sequences -/

/-- One sequential upload request. -/
structure UploadReq where
  contract_id : Nat
  filename : String
  content : List Nat
  actor : String
  ts : String
  ats : String

/-- Run a sequence of upload requests. -/
def runUploads (ups : List UploadReq) (s : St) : St :=
  ups.foldl (fun s u => document_new u.contract_id u.filename u.content u.actor u.ts u.ats s) s

/-- A mutating request (POST success path). -/
inductive MutOp where
  | uploadDoc (contract_id : Nat) (filename : String) (content : List Nat)
      (actor dts ats : String)
  | contractNew (title : String) (vendor_id : Option Nat) (owner state : String)
      (effective_date termination_date : Option String) (notice_period_days : Option Nat)
      (renewal_intent : Option String) (sensitive : Bool) (tagsRaw actor ts : String)
  | contractEdit (cid : Nat) (title : String) (vendor_id : Option Nat)
      (owner state : String) (effective_date termination_date : Option String)
      (notice_period_days : Option Nat) (renewal_intent : Option String)
      (sensitive : Bool) (tagsRaw actor ts : String)
  | vendorNew (name : String) (risk_profile status : Option String) (actor ts : String)
  | vendorEdit (vid : Nat) (name : String) (risk_profile status : Option String)
      (actor ts : String)

/-- Apply one mutating request to the state. -/
def applyMut : MutOp → St → St
  | .uploadDoc c f b a dts ats, s => document_new c f b a dts ats s
  | .contractNew t v o st ed td npd ri sv tr a ts, s =>
      contract_new t v o st ed td npd ri sv tr a ts s
  | .contractEdit cid t v o st ed td npd ri sv tr a ts, s =>
      contract_edit cid t v o st ed td npd ri sv tr a ts s
  | .vendorNew n rp stt a ts, s => vendor_new n rp stt a ts s
  | .vendorEdit vid n rp stt a ts, s => vendor_edit vid n rp stt a ts s

/-- Run a sequence of mutating requests. -/
def runMutOps (ops : List MutOp) (s : St) : St :=
  ops.foldl (fun s op => applyMut op s) s

/-- Upload filenames have passed `secure_filename`, which removes path
separators; other requests are unconstrained. -/
abbrev MutOpOK : MutOp → Prop
  | .uploadDoc _ f _ _ _ _ => '/' ∉ f.data
  | _ => True

/-- States reachable from the fresh database by mutating requests. -/
inductive Reach : St → Prop where
  | init : Reach initSt
  | step (s : St) (op : MutOp) : Reach s → MutOpOK op → Reach (applyMut op s)

/-! ## Generic list lemmas -/

theorem append_singleton_inj {l₁ l₂ : List α} {a b : α}
    (h : l₁ ++ [a] = l₂ ++ [b]) : l₁ = l₂ ∧ a = b := by
  have hrev := congrArg List.reverse h
  simp only [List.reverse_append, List.reverse_cons, List.reverse_nil, List.nil_append,
    List.singleton_append, List.cons.injEq] at hrev
  exact ⟨by simpa using congrArg List.reverse hrev.2, hrev.1⟩

theorem le_foldl_max {x : Nat} : ∀ {l : List Nat} {a : Nat}, x ∈ l ∨ x ≤ a → x ≤ l.foldl max a
  | [], _, h => by cases h with
    | inl h => cases h
    | inr h => simpa using h
  | y :: ys, a, h => by
    have : x ∈ ys ∨ x ≤ max a y := by
      cases h with
      | inl h =>
        cases List.mem_cons.mp h with
        | inl h => exact Or.inr (h ▸ Nat.le_max_right a y)
        | inr h => exact Or.inl h
      | inr h => exact Or.inr (Nat.le_trans h (Nat.le_max_left a y))
    simpa using le_foldl_max this

theorem foldl_max_le : ∀ {l : List Nat} {a b : Nat}, a ≤ b → (∀ x ∈ l, x ≤ b) →
    l.foldl max a ≤ b
  | [], _, _, ha, _ => by simpa using ha
  | y :: ys, a, b, ha, hl => by
    have hy : y ≤ b := hl y (List.mem_cons_self y ys)
    have : max a y ≤ b := Nat.max_le.mpr ⟨ha, hy⟩
    simpa using foldl_max_le this (fun x hx => hl x (List.mem_cons_of_mem _ hx))

theorem foldl_max_range' (k : Nat) : (List.range' 1 k).foldl max 0 = k := by
  induction k with
  | zero => rfl
  | succ n ih =>
    rw [List.range'_concat, List.foldl_append, ih]
    simp only [List.foldl_cons, List.foldl_nil]
    omega

/-! ## Insertion sort lemmas -/

theorem perm_insertLe (le : α → α → Bool) (x : α) :
    ∀ l : List α, (insertLe le x l).Perm (x :: l)
  | [] => List.Perm.refl _
  | y :: ys => by
    unfold insertLe
    by_cases h : le x y = true
    · simp [h]
    · simp only [h]
      rw [if_neg (by simp [h])]
      exact ((perm_insertLe le x ys).cons y).trans (List.Perm.swap x y ys)

theorem perm_sortByLe (le : α → α → Bool) : ∀ l : List α, (sortByLe le l).Perm l
  | [] => List.Perm.refl _
  | x :: xs =>
    (perm_insertLe le x (sortByLe le xs)).trans ((perm_sortByLe le xs).cons x)

theorem mem_sortByLe {le : α → α → Bool} {x : α} {l : List α} :
    x ∈ sortByLe le l ↔ x ∈ l :=
  (perm_sortByLe le l).mem_iff

theorem length_sortByLe (le : α → α → Bool) (l : List α) :
    (sortByLe le l).length = l.length :=
  (perm_sortByLe le l).length_eq

theorem pairwise_insertLe {le : α → α → Bool}
    (total : ∀ a b, le a b = true ∨ le b a = true)
    (tr : ∀ a b c, le a b = true → le b c = true → le a c = true) {x : α} :
    ∀ {l : List α}, l.Pairwise (fun a b => le a b = true) →
      (insertLe le x l).Pairwise (fun a b => le a b = true)
  | [], _ => by simp [insertLe]
  | y :: ys, h => by
    rcases List.pairwise_cons.mp h with ⟨hy, hys⟩
    unfold insertLe
    by_cases hxy : le x y = true
    · simp only [hxy, if_true]
      refine List.Pairwise.cons ?_ h
      intro a ha
      cases List.mem_cons.mp ha with
      | inl ha => exact ha ▸ hxy
      | inr ha => exact tr x y a hxy (hy a ha)
    · rw [if_neg (by simp [hxy])]
      have hyx : le y x = true := (total x y).resolve_left hxy
      refine List.Pairwise.cons ?_ (pairwise_insertLe total tr hys)
      intro a ha
      have := (perm_insertLe le x ys).mem_iff.mp ha
      cases List.mem_cons.mp this with
      | inl h2 => exact h2 ▸ hyx
      | inr h2 => exact hy a h2

/-! ## Lexicographic comparison lemmas -/

theorem char_toNat_inj {a b : Char} (h : a.toNat = b.toNat) : a = b :=
  Char.ext (UInt32.ext h)

theorem charsLe_total : ∀ a b : List Char, charsLe a b = true ∨ charsLe b a = true
  | [], _ => Or.inl rfl
  | _ :: _, [] => Or.inr rfl
  | a :: as, b :: bs => by
    by_cases h : a = b
    · subst h
      simpa [charsLe] using charsLe_total as bs
    · have h' : ¬ b = a := fun hc => h hc.symm
      have hne : a.toNat ≠ b.toNat := fun hc => h (char_toNat_inj hc)
      simp only [charsLe, if_neg h, if_neg h', decide_eq_true_eq]
      omega

theorem charsLe_trans : ∀ a b c : List Char,
    charsLe a b = true → charsLe b c = true → charsLe a c = true
  | [], _, _, _, _ => rfl
  | x :: xs, [], _, h, _ => by simp [charsLe] at h
  | x :: xs, y :: ys, [], _, h => by simp [charsLe] at h
  | x :: xs, y :: ys, z :: zs, h1, h2 => by
    by_cases hxy : x = y <;> by_cases hyz : y = z
    · subst hxy; subst hyz
      simp only [charsLe, if_pos rfl] at h1 h2 ⊢
      exact charsLe_trans xs ys zs h1 h2
    · subst hxy
      simpa [charsLe, hyz] using h2
    · subst hyz
      simpa [charsLe, hxy] using h1
    · simp only [charsLe, if_neg hxy] at h1
      simp only [charsLe, if_neg hyz] at h2
      have hlt1 : x.toNat < y.toNat := by simpa using h1
      have hlt2 : y.toNat < z.toNat := by simpa using h2
      have hxz : ¬ x = z := by
        intro hc; subst hc; omega
      simp only [charsLe, if_neg hxz]
      simpa using Nat.lt_trans hlt1 hlt2

theorem strLeB_total (a b : String) : strLeB a b = true ∨ strLeB b a = true :=
  charsLe_total a.data b.data

theorem strLeB_trans {a b c : String} (h1 : strLeB a b = true) (h2 : strLeB b c = true) :
    strLeB a c = true :=
  charsLe_trans a.data b.data c.data h1 h2

/-! ## Decimal representation lemmas -/

theorem toNat_digitChar {n : Nat} (h : n < 10) : (Char.ofNat (48 + n)).toNat = 48 + n := by
  interval_cases n <;> decide

theorem natDigitsAux_ne_nil {fuel n : Nat} (h : n < fuel) : natDigitsAux fuel n ≠ [] := by
  cases fuel with
  | zero => omega
  | succ f =>
    unfold natDigitsAux
    by_cases h10 : n < 10
    · simp [h10]
    · simp only [if_neg h10]
      intro hc
      have := congrArg List.length hc
      simp [List.length_append] at this

theorem mem_natDigitsAux_range {fuel n : Nat} (h : n < fuel) :
    ∀ c ∈ natDigitsAux fuel n, 48 ≤ c.toNat ∧ c.toNat ≤ 57 := by
  induction fuel generalizing n with
  | zero => omega
  | succ f ih =>
    intro c hc
    unfold natDigitsAux at hc
    by_cases h10 : n < 10
    · simp only [if_pos h10, List.mem_singleton] at hc
      subst hc
      rw [toNat_digitChar h10]
      omega
    · simp only [if_neg h10, List.mem_append, List.mem_singleton] at hc
      cases hc with
      | inl hmem =>
        have hfuel : n / 10 < f := by omega
        exact ih hfuel c hmem
      | inr hc =>
        subst hc
        have hm : n % 10 < 10 := Nat.mod_lt _ (by omega)
        rw [toNat_digitChar hm]
        omega

theorem natDecimal_ne_nil (n : Nat) : natDecimal n ≠ [] :=
  natDigitsAux_ne_nil (Nat.lt_succ_self n)

theorem mem_natDecimal_range {n : Nat} : ∀ c ∈ natDecimal n, 48 ≤ c.toNat ∧ c.toNat ≤ 57 :=
  mem_natDigitsAux_range (Nat.lt_succ_self n)

theorem underscore_not_mem_natDecimal {n : Nat} : ('_' : Char) ∉ natDecimal n := by
  intro h
  have hr := mem_natDecimal_range '_' h
  have : ('_' : Char).toNat = 95 := by decide
  omega

theorem slash_not_mem_natDecimal {n : Nat} : ('/' : Char) ∉ natDecimal n := by
  intro h
  have hr := mem_natDecimal_range '/' h
  have : ('/' : Char).toNat = 47 := by decide
  omega

theorem digitChar_inj {m n : Nat} (hm : m < 10) (hn : n < 10)
    (h : Char.ofNat (48 + m) = Char.ofNat (48 + n)) : m = n := by
  have := congrArg Char.toNat h
  rw [toNat_digitChar hm, toNat_digitChar hn] at this
  omega

theorem natDigitsAux_inj : ∀ {f1 f2 m n : Nat}, m < f1 → n < f2 →
    natDigitsAux f1 m = natDigitsAux f2 n → m = n := by
  intro f1
  induction f1 with
  | zero => intro _ _ _ h; omega
  | succ f ih =>
    intro f2 m n hm hn heq
    cases f2 with
    | zero => omega
    | succ f2' =>
      unfold natDigitsAux at heq
      by_cases hm10 : m < 10 <;> by_cases hn10 : n < 10
      · simp only [if_pos hm10, if_pos hn10, List.cons.injEq] at heq
        exact digitChar_inj hm10 hn10 heq.1
      · exfalso
        simp only [if_pos hm10, if_neg hn10] at heq
        have hlen := congrArg List.length heq
        simp only [List.length_append, List.length_singleton] at hlen
        have hne := natDigitsAux_ne_nil (show n / 10 < f2' by omega)
        have hpos : 0 < (natDigitsAux f2' (n / 10)).length := List.length_pos.mpr hne
        omega
      · exfalso
        simp only [if_neg hm10, if_pos hn10] at heq
        have hlen := congrArg List.length heq
        simp only [List.length_append, List.length_singleton] at hlen
        have hne := natDigitsAux_ne_nil (show m / 10 < f by omega)
        have hpos : 0 < (natDigitsAux f (m / 10)).length := List.length_pos.mpr hne
        omega
      · simp only [if_neg hm10, if_neg hn10] at heq
        rcases append_singleton_inj heq with ⟨hpre, hdig⟩
        have hdiv : m / 10 = n / 10 :=
          ih (show m / 10 < f by omega) (show n / 10 < f2' by omega) hpre
        have hmod : m % 10 = n % 10 :=
          digitChar_inj (Nat.mod_lt _ (by omega)) (Nat.mod_lt _ (by omega)) hdig
        omega

theorem natDecimal_inj {m n : Nat} (h : natDecimal m = natDecimal n) : m = n :=
  natDigitsAux_inj (Nat.lt_succ_self m) (Nat.lt_succ_self n) h

/-! ## Storage-name lemmas -/

theorem underscore_split : ∀ {a c b d : List Char}, ('_' : Char) ∉ a → ('_' : Char) ∉ c →
    a ++ '_' :: b = c ++ '_' :: d → a = c ∧ b = d := by
  intro a
  induction a with
  | nil =>
    intro c b d _ hc heq
    cases c with
    | nil => simpa using heq
    | cons y ys =>
      exfalso
      simp only [List.nil_append, List.cons_append, List.cons.injEq] at heq
      exact hc (heq.1 ▸ List.mem_cons_self y ys)
  | cons x xs ih =>
    intro c b d ha hc heq
    cases c with
    | nil =>
      exfalso
      simp only [List.cons_append, List.nil_append, List.cons.injEq] at heq
      exact ha (heq.1 ▸ List.mem_cons_self x xs)
    | cons y ys =>
      simp only [List.cons_append, List.cons.injEq] at heq
      have hxs : ('_' : Char) ∉ xs := fun h => ha (List.mem_cons_of_mem _ h)
      have hys : ('_' : Char) ∉ ys := fun h => hc (List.mem_cons_of_mem _ h)
      rcases ih hxs hys heq.2 with ⟨h1, h2⟩
      exact ⟨by rw [heq.1, h1], h2⟩

theorem storedName_data (c v : Nat) (f : String) :
    (storedName c v f).data = natDecimal c ++ '_' :: (natDecimal v ++ '_' :: f.data) := by
  simp [storedName, natRepr, String.data]

theorem storedName_inj {c v c' v' : Nat} {f f' : String}
    (h : storedName c v f = storedName c' v' f') : c = c' ∧ v = v' ∧ f = f' := by
  have hd : natDecimal c ++ '_' :: (natDecimal v ++ '_' :: f.data) =
      natDecimal c' ++ '_' :: (natDecimal v' ++ '_' :: f'.data) := by
    rw [← storedName_data, ← storedName_data, h]
  rcases underscore_split underscore_not_mem_natDecimal underscore_not_mem_natDecimal hd
    with ⟨h1, h2⟩
  rcases underscore_split underscore_not_mem_natDecimal underscore_not_mem_natDecimal h2
    with ⟨h3, h4⟩
  exact ⟨natDecimal_inj h1, natDecimal_inj h3, congrArg String.mk h4⟩

/-! ## Path lemmas -/

theorem splitChar_cons (sep c : Char) (rest : List Char) :
    splitChar sep (c :: rest) =
      match splitChar sep rest with
      | [] => [[]]
      | h :: t => if c = sep then [] :: h :: t else (c :: h) :: t := rfl

theorem splitChar_ne_nil (sep : Char) : ∀ l : List Char, splitChar sep l ≠ []
  | [] => by simp [splitChar]
  | c :: rest => by
    unfold splitChar
    cases hsp : splitChar sep rest with
    | nil => simp
    | cons h t => by_cases hc : c = sep <;> simp [hc]

theorem sep_not_mem_splitChar (sep : Char) :
    ∀ (l : List Char), ∀ comp ∈ splitChar sep l, sep ∉ comp
  | [], comp, hmem => by
    simp only [splitChar, List.mem_singleton] at hmem
    subst hmem; simp
  | c :: rest, comp, hmem => by
    unfold splitChar at hmem
    cases hsp : splitChar sep rest with
    | nil => exact absurd hsp (splitChar_ne_nil sep rest)
    | cons h t =>
      rw [hsp] at hmem
      by_cases hc : c = sep
      · simp only [if_pos hc, List.mem_cons] at hmem
        rcases hmem with h1 | h1 | h1
        · subst h1; simp
        · exact sep_not_mem_splitChar sep rest comp (h1 ▸ hsp ▸ List.mem_cons_self h t)
        · exact sep_not_mem_splitChar sep rest comp (hsp ▸ List.mem_cons_of_mem h h1)
      · simp only [if_neg hc, List.mem_cons] at hmem
        rcases hmem with h1 | h1
        · subst h1
          intro hsep
          rcases List.mem_cons.mp hsep with h2 | h2
          · exact hc h2.symm
          · exact sep_not_mem_splitChar sep rest h (hsp ▸ List.mem_cons_self h t) h2
        · exact sep_not_mem_splitChar sep rest comp (hsp ▸ List.mem_cons_of_mem h h1)

theorem splitChar_single {sep : Char} : ∀ {l : List Char}, sep ∉ l → splitChar sep l = [l]
  | [], _ => rfl
  | c :: rest, h => by
    have hrest : sep ∉ rest := fun hr => h (List.mem_cons_of_mem c hr)
    have hc : ¬ c = sep := fun hc => h (hc ▸ List.mem_cons_self c rest)
    unfold splitChar
    rw [splitChar_single hrest]
    simp [hc]

theorem splitChar_sep_append {sep : Char} :
    ∀ {x : List Char} (t : List Char), sep ∉ x →
      splitChar sep (x ++ sep :: t) = x :: splitChar sep t
  | [], t, _ => by
    show splitChar sep (sep :: t) = [] :: splitChar sep t
    rw [splitChar_cons]
    cases hsp : splitChar sep t with
    | nil => exact absurd hsp (splitChar_ne_nil sep t)
    | cons h t' => simp
  | c :: x', t, hx => by
    have hx' : sep ∉ x' := fun hr => hx (List.mem_cons_of_mem c hr)
    have hc : ¬ c = sep := fun hc => hx (hc ▸ List.mem_cons_self c x')
    show splitChar sep (c :: (x' ++ sep :: t)) = (c :: x') :: splitChar sep t
    rw [splitChar_cons, splitChar_sep_append t hx']
    simp [hc]

theorem splitChar_joinChar {sep : Char} :
    ∀ {comps : List (List Char)}, (∀ x ∈ comps, x ≠ [] ∧ sep ∉ x) → comps ≠ [] →
      splitChar sep (joinChar sep comps) = comps
  | [], _, hne => absurd rfl hne
  | [x], hok, _ => by
    show splitChar sep x = [x]
    exact splitChar_single (hok x (List.mem_cons_self x [])).2
  | x :: y :: rest, hok, _ => by
    show splitChar sep (x ++ sep :: joinChar sep (y :: rest)) = x :: (y :: rest)
    rw [splitChar_sep_append _ (hok x (List.mem_cons_self x _)).2]
    rw [splitChar_joinChar (fun z hz => hok z (List.mem_cons_of_mem x hz)) (by simp)]

theorem joinChar_ddInitial (rest : List (List Char)) :
    joinChar '/' (['.', '.'] :: rest) = ['.', '.'] ∨
      ['.', '.', '/'].isPrefixOf (joinChar '/' (['.', '.'] :: rest)) = true := by
  cases rest with
  | nil => exact Or.inl rfl
  | cons y ys =>
    refine Or.inr ?_
    show (['.', '.', '/'].isPrefixOf
      (['.', '.'] ++ '/' :: joinChar '/' (y :: ys))) = true
    simp [List.isPrefixOf]

theorem mem_of_isPrefixOf {p l : List Char} (h : p.isPrefixOf l = true) :
    ∀ c ∈ p, c ∈ l :=
  fun _ hc => (List.isPrefixOf_iff_prefix.mp h).subset hc

/-- The structural invariant of the `normpath` component loop: all `".."`
components of the accumulator (held reversed) sit at its tail. -/
def DotsTail (acc : List (List Char)) : Prop :=
  ∃ m k, acc = m ++ List.replicate k ['.', '.'] ∧ ['.', '.'] ∉ m

theorem dotsTail_nil : DotsTail [] := ⟨[], 0, rfl, by simp⟩

theorem dotsTail_normStep {isAbs : Bool} {acc : List (List Char)} (comp : List Char)
    (h : DotsTail acc) : DotsTail (normStep isAbs acc comp) := by
  rcases h with ⟨m, k, hacc, hm⟩
  unfold normStep
  by_cases h1 : comp = [] ∨ comp = ['.']
  · simpa [h1] using ⟨m, k, hacc, hm⟩
  · simp only [if_neg h1]
    by_cases h2 : comp ≠ ['.', '.'] ∨ (¬ isAbs ∧ acc = []) ∨ acc.head? = some ['.', '.']
    · simp only [if_pos h2]
      by_cases hdd : comp = ['.', '.']
      · subst hdd
        have hm0 : m = [] := by
          rcases h2 with h2 | ⟨_, h2⟩ | h2
          · exact absurd rfl h2
          · rw [h2] at hacc
            rcases List.append_eq_nil.mp hacc.symm with ⟨hm0, _⟩
            exact hm0
          · cases m with
            | nil => rfl
            | cons a m' =>
              exfalso
              rw [hacc] at h2
              simp only [List.cons_append, List.head?_cons, Option.some.injEq] at h2
              exact hm (h2 ▸ List.mem_cons_self a m')
        subst hm0
        exact ⟨[], k + 1, by simp [hacc, List.replicate_succ], by simp⟩
      · exact ⟨comp :: m, k, by simp [hacc], by
          intro hc
          rcases List.mem_cons.mp hc with hc | hc
          · exact hdd hc.symm
          · exact hm hc⟩
    · simp only [if_neg h2]
      push_neg at h2
      rcases h2 with ⟨-, -, hhead⟩
      cases m with
      | nil =>
        cases k with
        | zero =>
          simp only [List.nil_append, List.replicate] at hacc
          subst hacc
          exact dotsTail_nil
        | succ k' =>
          exfalso
          rw [hacc] at hhead
          simp [List.replicate_succ] at hhead
      | cons a m' =>
        rw [hacc]
        simp only [List.cons_append]
        exact ⟨m', k, rfl, fun hc => hm (List.mem_cons_of_mem a hc)⟩

theorem dotsTail_foldl {isAbs : Bool} :
    ∀ (comps : List (List Char)) (acc : List (List Char)), DotsTail acc →
      DotsTail (comps.foldl (normStep isAbs) acc)
  | [], _, h => h
  | c :: cs, acc, h => dotsTail_foldl cs _ (dotsTail_normStep c h)

/-- Components accumulated by the `normpath` loop are nonempty and slash-free. -/
def CompsOK (acc : List (List Char)) : Prop :=
  ∀ x ∈ acc, x ≠ [] ∧ ('/' : Char) ∉ x

theorem compsOK_normStep {isAbs : Bool} {acc : List (List Char)} {comp : List Char}
    (hcomp : ('/' : Char) ∉ comp) (h : CompsOK acc) : CompsOK (normStep isAbs acc comp) := by
  unfold normStep
  by_cases h1 : comp = [] ∨ comp = ['.']
  · simpa [h1] using h
  · simp only [if_neg h1]
    by_cases h2 : comp ≠ ['.', '.'] ∨ (¬ isAbs ∧ acc = []) ∨ acc.head? = some ['.', '.']
    · simp only [if_pos h2]
      intro x hx
      rcases List.mem_cons.mp hx with hx | hx
      · subst hx
        exact ⟨fun hc => h1 (Or.inl hc), hcomp⟩
      · exact h x hx
    · simp only [if_neg h2]
      cases acc with
      | nil => intro x hx; cases hx
      | cons a t => exact fun x hx => h x (List.mem_cons_of_mem a hx)

theorem compsOK_foldl {isAbs : Bool} :
    ∀ (comps : List (List Char)) (acc : List (List Char)),
      (∀ c ∈ comps, ('/' : Char) ∉ c) → CompsOK acc →
      CompsOK (comps.foldl (normStep isAbs) acc)
  | [], _, _, h => h
  | c :: cs, acc, hc, h =>
    compsOK_foldl cs _ (fun z hz => hc z (List.mem_cons_of_mem c hz))
      (compsOK_normStep (hc c (List.mem_cons_self c cs)) h)

theorem normComps_structure (l : List Char) :
    (∃ k rest, normComps l = List.replicate k ['.', '.'] ++ rest ∧ ['.', '.'] ∉ rest) ∧
      CompsOK (normComps l) := by
  unfold normComps
  constructor
  · rcases dotsTail_foldl (splitChar '/' l) [] dotsTail_nil with ⟨m, k, hacc, hm⟩
    refine ⟨k, m.reverse, ?_, ?_⟩
    · rw [hacc, List.reverse_append, List.reverse_replicate]
    · simpa using hm
  · intro x hx
    have hx' := List.mem_reverse.mp hx
    exact compsOK_foldl (splitChar '/' l) []
      (fun c hc => sep_not_mem_splitChar '/' l c hc)
      (fun z hz => absurd hz (List.not_mem_nil z)) x hx'

theorem isAbsL_append_slash (pre joined : List Char) (hpre : pre.head? = some '/') :
    isAbsL (pre ++ joined) = true := by
  cases pre with
  | nil => simp at hpre
  | cons c t =>
    simp only [List.head?_cons, Option.some.injEq] at hpre
    simp [isAbsL, hpre]

theorem normpathL_abs {l : List Char} (hl : l ≠ []) (habs : isAbsL l = true) :
    isAbsL (normpathL l) = true := by
  unfold normpathL
  rw [if_neg hl]
  simp only [habs, if_true]
  have hp : ((if isDslashL l = true then ['/', '/'] else ['/']) ++
      joinChar '/' (normComps l)).head? = some '/' := by
    by_cases hd : isDslashL l = true <;> simp [hd]
  rw [if_neg ?_]
  · exact isAbsL_append_slash _ _ (by
      by_cases hd : isDslashL l = true <;> simp [hd])
  · intro hc
    rw [hc] at hp
    simp at hp

/-- Every name accepted by `safe_join` resolves inside the root: the joined
path is the root extended with the normalized suffix, which is relative and
has no `".."` component. -/
theorem safeJoinL_eq_some {root l res : List Char} (h : safeJoinL root l = some res) :
    res = root ++ '/' :: normSuffixL l ∧ isAbsL (normSuffixL l) = false ∧
      ∀ comp ∈ splitChar '/' (normSuffixL l), comp ≠ ['.', '.'] := by
  unfold safeJoinL at h
  by_cases hrej : isAbsL (normSuffixL l) = true ∨ normSuffixL l = ['.', '.'] ∨
      ['.', '.', '/'].isPrefixOf (normSuffixL l) = true
  · rw [if_pos hrej] at h; cases h
  · rw [if_neg hrej] at h
    push_neg at hrej
    rcases hrej with ⟨habs, hne, hpre⟩
    refine ⟨by injection h with h; exact h.symm, by simpa using habs, ?_⟩
    by_cases hl : l = []
    · subst hl
      intro comp hcomp
      rw [show normSuffixL ([] : List Char) = [] from rfl] at hcomp
      rw [show splitChar '/' ([] : List Char) = [[]] from rfl] at hcomp
      simp only [List.mem_singleton] at hcomp
      subst hcomp
      simp
    · have hn : normSuffixL l = normpathL l := by simp [normSuffixL, hl]
      rw [hn] at habs hne hpre ⊢
      by_cases habsl : isAbsL l = true
      · exact absurd (normpathL_abs hl habsl) habs
      · unfold normpathL
        rw [if_neg hl]
        rcases normComps_structure l with ⟨⟨k, rest, hcomps, hrest⟩, hok⟩
        have habsl' : isAbsL l = false := by simpa using habsl
        simp only [habsl', Bool.false_eq_true, if_false, List.nil_append]
        by_cases hjoin : joinChar '/' (normComps l) = []
        · rw [if_pos hjoin]
          intro comp hcomp
          rw [show splitChar '/' (['.'] : List Char) = [['.']] from rfl] at hcomp
          simp only [List.mem_singleton] at hcomp
          subst hcomp
          simp
        · rw [if_neg hjoin]
          have hk0 : k = 0 := by
            by_contra hk
            cases k with
            | zero => exact hk rfl
            | succ k' =>
              rw [List.replicate_succ] at hcomps
              have hdd := joinChar_ddInitial (List.replicate k' ['.', '.'] ++ rest)
              rw [← List.cons_append] at hdd
              rw [← hcomps] at hdd
              unfold normpathL at hne hpre
              rw [if_neg hl] at hne hpre
              simp only [habsl', Bool.false_eq_true, if_false, List.nil_append,
                if_neg hjoin] at hne hpre
              rcases hdd with hdd | hdd
              · exact hne hdd
              · exact hpre hdd
          have hcompsne : normComps l ≠ [] := by
            intro hc
            exact hjoin (by rw [hc]; rfl)
          rw [splitChar_joinChar hok hcompsne]
          intro comp hcomp hcontra
          subst hcontra
          rw [hcomps, hk0] at hcomp
          simp only [List.replicate, List.nil_append] at hcomp
          exact hrest hcomp

/-- A flat, nonempty, non-dot name passes `safe_join` unchanged. -/
theorem safeJoinL_flat {root l : List Char} (hsl : ('/' : Char) ∉ l) (hne : l ≠ [])
    (hdot : l ≠ ['.']) (hdd : l ≠ ['.', '.']) :
    safeJoinL root l = some (root ++ '/' :: l) := by
  have habs : isAbsL l = false := by
    cases l with
    | nil => exact absurd rfl hne
    | cons c t =>
      have : c ≠ '/' := fun hc => hsl (hc ▸ List.mem_cons_self c t)
      simp [isAbsL, this]
  have hnorm : normpathL l = l := by
    unfold normpathL
    rw [if_neg hne]
    have hcomps : normComps l = [l] := by
      unfold normComps
      rw [splitChar_single hsl]
      simp only [List.foldl_cons, List.foldl_nil]
      unfold normStep
      rw [if_neg (by simp [hne, hdot]), if_pos (Or.inl hdd)]
      simp
    rw [hcomps]
    simp only [habs, Bool.false_eq_true, if_false, List.nil_append]
    rw [if_neg ?_]
    · rfl
    · show joinChar '/' [l] ≠ []
      simpa [joinChar] using hne
  have hns : normSuffixL l = l := by simp [normSuffixL, hne, hnorm]
  have hrej : ¬ (isAbsL l = true ∨ l = ['.', '.'] ∨ ['.', '.', '/'].isPrefixOf l = true) := by
    push_neg
    exact ⟨by simp [habs], hdd, fun hc => absurd (mem_of_isPrefixOf hc '/' (by simp)) hsl⟩
  show (if isAbsL (normSuffixL l) = true ∨ normSuffixL l = ['.', '.'] ∨
      ['.', '.', '/'].isPrefixOf (normSuffixL l) = true then none
    else some (root ++ '/' :: normSuffixL l)) = some (root ++ '/' :: l)
  rw [hns, if_neg hrej]

/-! ## Tag machinery -/

/-- The effect of the raw tag list after normalization: stripped, empties
dropped (candidates kept by the `upsert_tags` loop). -/
def cleanedList (L : List String) : List String :=
  (L.map pyStrip).filter (fun t => !(t == ""))

/-- Database well-formedness maintained for the tag tables: `tags.id` is a
primary key below the AUTOINCREMENT counter, and every association references
an id below the counter. -/
def TagsWF (s : St) : Prop :=
  (s.tags.map Tag.id).Nodup ∧ (∀ t ∈ s.tags, t.id < s.nextTagId) ∧
    (∀ p ∈ s.contract_tags, p.snd < s.nextTagId)

theorem find?_append_some {p : α → Bool} {l₁ l₂ : List α} {a : α}
    (h : l₁.find? p = some a) : (l₁ ++ l₂).find? p = some a := by
  rw [List.find?_append, h]
  rfl

theorem mem_cleanedList {n : String} {L : List String} :
    n ∈ cleanedList L ↔ ∃ name ∈ L, pyStrip name = n ∧ n ≠ "" := by
  simp only [cleanedList, List.mem_filter, List.mem_map, Bool.not_eq_true']
  constructor
  · rintro ⟨⟨name, hname, rfl⟩, hne⟩
    exact ⟨name, hname, rfl, by simpa using hne⟩
  · rintro ⟨name, hname, rfl, hne⟩
    exact ⟨⟨name, hname, rfl⟩, by simpa using hne⟩

theorem mem_cleanedList_cons {n name : String} {L : List String} :
    n ∈ cleanedList (name :: L) ↔
      (pyStrip name ≠ "" ∧ n = pyStrip name) ∨ n ∈ cleanedList L := by
  rw [mem_cleanedList, mem_cleanedList]
  constructor
  · rintro ⟨m, hm, hstrip, hne⟩
    rcases List.mem_cons.mp hm with rfl | hm'
    · exact Or.inl ⟨by rw [hstrip]; exact hne, hstrip.symm⟩
    · exact Or.inr ⟨m, hm', hstrip, hne⟩
  · rintro (⟨hne, rfl⟩ | ⟨m, hm', hstrip, hne2⟩)
    · exact ⟨name, List.mem_cons_self name L, rfl, hne⟩
    · exact ⟨m, List.mem_cons_of_mem name hm', hstrip, hne2⟩

theorem upsertStep_fixed (c : Nat) (s : St) (name : String) :
    (upsertStep c s name).documents = s.documents ∧
      (upsertStep c s name).audit_events = s.audit_events ∧
      (upsertStep c s name).files = s.files ∧
      (upsertStep c s name).contracts = s.contracts ∧
      (upsertStep c s name).vendors = s.vendors ∧
      (upsertStep c s name).nextAuditId = s.nextAuditId ∧
      (upsertStep c s name).nextDocId = s.nextDocId := by
  unfold upsertStep
  by_cases h1 : pyStrip name = ""
  · simp [h1]
  · simp only [if_neg h1]
    by_cases h2 : s.tags.any (fun t => t.name == pyStrip name) = true <;>
      simp only [h2, if_true, Bool.false_eq_true, if_false] <;>
      split <;> simp

theorem upsertStep_tags_ext (c : Nat) (s : St) (name : String) :
    ∃ ext, (upsertStep c s name).tags = s.tags ++ ext := by
  unfold upsertStep
  by_cases h1 : pyStrip name = ""
  · exact ⟨[], by simp [h1]⟩
  · simp only [if_neg h1]
    by_cases h2 : s.tags.any (fun t => t.name == pyStrip name) = true
    · simp only [h2, if_true]
      split
      · exact ⟨[], by simp⟩
      · exact ⟨[], by simp⟩
    · simp only [h2, Bool.false_eq_true, if_false]
      split
      · exact ⟨[⟨s.nextTagId, pyStrip name⟩], rfl⟩
      · exact ⟨[⟨s.nextTagId, pyStrip name⟩], rfl⟩

theorem upsertStep_ct_ext (c : Nat) (s : St) (name : String) :
    ∃ ext, (upsertStep c s name).contract_tags = s.contract_tags ++ ext := by
  unfold upsertStep
  by_cases h1 : pyStrip name = ""
  · exact ⟨[], by simp [h1]⟩
  · simp only [if_neg h1]
    by_cases h2 : s.tags.any (fun t => t.name == pyStrip name) = true <;>
      simp only [h2, if_true, Bool.false_eq_true, if_false] <;> split
    · exact ⟨[], by simp⟩
    · exact ⟨[(c, _)], rfl⟩
    · exact ⟨[], by simp⟩
    · exact ⟨[(c, _)], rfl⟩

/-- A raw tag name is settled in a state: it strips to nothing, or its
vocabulary row exists and the association with the contract exists. -/
def Settled (c : Nat) (s : St) (name : String) : Prop :=
  pyStrip name = "" ∨
    ∃ t, s.tags.find? (fun t => t.name == pyStrip name) = some t ∧
      (c, t.id) ∈ s.contract_tags

theorem settled_upsertStep_self (c : Nat) (s : St) (name : String) :
    Settled c (upsertStep c s name) name := by
  by_cases h1 : pyStrip name = ""
  · exact Or.inl h1
  · refine Or.inr ?_
    unfold upsertStep
    simp only [if_neg h1]
    by_cases h2 : s.tags.any (fun t => t.name == pyStrip name) = true
    · simp only [h2, if_true]
      rcases List.any_eq_true.mp h2 with ⟨t, htmem, htp⟩
      have hsome : (s.tags.find? (fun t => t.name == pyStrip name)).isSome := by
        rw [List.find?_isSome]
        exact ⟨t, htmem, htp⟩
      rcases Option.isSome_iff_exists.mp hsome with ⟨t0, hfind⟩
      rw [hfind]
      simp only [Option.getD_some]
      split
      · next hcont =>
        exact ⟨t0, hfind, by simpa [List.contains, List.elem_iff] using hcont⟩
      · exact ⟨t0, hfind, by simp⟩
    · simp only [h2, Bool.false_eq_true, if_false]
      have hnone : s.tags.find? (fun t => t.name == pyStrip name) = none := by
        rw [List.find?_eq_none]
        intro t ht hp
        exact h2 (List.any_eq_true.mpr ⟨t, ht, hp⟩)
      have hfind : (s.tags ++ [(⟨s.nextTagId, pyStrip name⟩ : Tag)]).find?
          (fun t : Tag => t.name == pyStrip name) = some ⟨s.nextTagId, pyStrip name⟩ := by
        rw [List.find?_append, hnone, Option.none_or]
        exact List.find?_cons_of_pos _ (by simp)
      rw [hfind]
      simp only [Option.getD_some]
      split
      · next hcont =>
        exact ⟨⟨s.nextTagId, pyStrip name⟩, hfind, by
          simpa [List.contains, List.elem_iff] using hcont⟩
      · exact ⟨⟨s.nextTagId, pyStrip name⟩, hfind, by simp⟩

theorem settled_mono {c : Nat} {s : St} {name : String} (m : String)
    (h : Settled c s name) : Settled c (upsertStep c s m) name := by
  rcases h with h | ⟨t, hfind, hmem⟩
  · exact Or.inl h
  · rcases upsertStep_tags_ext c s m with ⟨ext, hext⟩
    rcases upsertStep_ct_ext c s m with ⟨ext2, hext2⟩
    refine Or.inr ⟨t, ?_, ?_⟩
    · rw [hext]
      exact find?_append_some hfind
    · rw [hext2]
      exact List.mem_append_left _ hmem

theorem settled_foldl {c : Nat} {s : St} {name : String} :
    ∀ (L : List String), Settled c s name → Settled c (L.foldl (upsertStep c) s) name := by
  intro L
  induction L generalizing s with
  | nil => exact fun h => h
  | cons m L' ih => exact fun h => ih (settled_mono m h)

theorem settled_all_foldl (c : Nat) :
    ∀ (L : List String) (s : St), ∀ n ∈ L, Settled c (L.foldl (upsertStep c) s) n := by
  intro L
  induction L with
  | nil => intro s n hn; cases hn
  | cons m L' ih =>
    intro s n hn
    rcases List.mem_cons.mp hn with rfl | hn
    · exact settled_foldl L' (settled_upsertStep_self c s n)
    · exact ih (upsertStep c s m) n hn

theorem upsertStep_settled_id {c : Nat} {s : St} {name : String}
    (h : Settled c s name) : upsertStep c s name = s := by
  by_cases h1 : pyStrip name = ""
  · simp [upsertStep, h1]
  · rcases h with h | ⟨t, hfind, hmem⟩
    · exact absurd h h1
    unfold upsertStep
    rw [if_neg h1]
    have hp := List.find?_some hfind
    have hany : s.tags.any (fun t => t.name == pyStrip name) = true :=
      List.any_eq_true.mpr ⟨t, List.mem_of_find?_eq_some hfind, hp⟩
    simp only [hany, if_true, hfind, Option.getD_some]
    rw [if_pos (by simpa [List.contains, List.elem_iff] using hmem)]

theorem foldl_settled_id {c : Nat} :
    ∀ (L : List String) (s : St), (∀ n ∈ L, Settled c s n) → L.foldl (upsertStep c) s = s := by
  intro L
  induction L with
  | nil => intro s _; rfl
  | cons m L' ih =>
    intro s h
    have hm : upsertStep c s m = s := upsertStep_settled_id (h m (List.mem_cons_self m L'))
    simp only [List.foldl_cons, hm]
    exact ih s (fun n hn => h n (List.mem_cons_of_mem m hn))

/-! ## Well-formedness preservation and the association characterization -/

theorem tagsWF_upsertStep {c : Nat} {s : St} (name : String) (h : TagsWF s) :
    TagsWF (upsertStep c s name) := by
  rcases h with ⟨hnd, hbound, hct⟩
  by_cases h1 : pyStrip name = ""
  · simpa [upsertStep, h1] using ⟨hnd, hbound, hct⟩
  · unfold upsertStep
    rw [if_neg h1]
    by_cases h2 : s.tags.any (fun t => t.name == pyStrip name) = true
    · simp only [h2, if_true]
      have hsome : (s.tags.find? (fun t => t.name == pyStrip name)).isSome := by
        rw [List.find?_isSome]
        exact List.any_eq_true.mp h2
      rcases Option.isSome_iff_exists.mp hsome with ⟨t0, hfind⟩
      rw [hfind]
      simp only [Option.getD_some]
      have ht0 : t0.id < s.nextTagId := hbound t0 (List.mem_of_find?_eq_some hfind)
      split
      · exact ⟨hnd, hbound, hct⟩
      · refine ⟨hnd, hbound, ?_⟩
        intro p hp
        rcases List.mem_append.mp hp with hp | hp
        · exact hct p hp
        · simp only [List.mem_singleton] at hp
          subst hp
          exact ht0
    · simp only [h2, Bool.false_eq_true, if_false]
      have hnone : s.tags.find? (fun t => t.name == pyStrip name) = none := by
        rw [List.find?_eq_none]
        intro t ht hp
        exact h2 (List.any_eq_true.mpr ⟨t, ht, hp⟩)
      have hfind : (s.tags ++ [(⟨s.nextTagId, pyStrip name⟩ : Tag)]).find?
          (fun t : Tag => t.name == pyStrip name) = some ⟨s.nextTagId, pyStrip name⟩ := by
        rw [List.find?_append, hnone, Option.none_or]
        exact List.find?_cons_of_pos _ (by simp)
      rw [hfind]
      simp only [Option.getD_some]
      have hnd' : ((s.tags ++ [(⟨s.nextTagId, pyStrip name⟩ : Tag)]).map Tag.id).Nodup := by
        rw [List.map_append]
        refine List.Nodup.append hnd (by simp) ?_
        intro a ha hb
        simp only [List.map_cons, List.map_nil, List.mem_singleton] at hb
        subst hb
        rcases List.mem_map.mp ha with ⟨t, ht, hid⟩
        exact absurd (hid ▸ hbound t ht) (Nat.lt_irrefl _)
      have hbound' : ∀ t ∈ s.tags ++ [(⟨s.nextTagId, pyStrip name⟩ : Tag)],
          t.id < s.nextTagId + 1 := by
        intro t ht
        rcases List.mem_append.mp ht with ht | ht
        · exact Nat.lt_succ_of_lt (hbound t ht)
        · simp only [List.mem_singleton] at ht
          subst ht
          exact Nat.lt_succ_self _
      have hct' : ∀ p ∈ s.contract_tags, p.snd < s.nextTagId + 1 :=
        fun p hp => Nat.lt_succ_of_lt (hct p hp)
      split
      · exact ⟨hnd', hbound', hct'⟩
      · refine ⟨hnd', hbound', ?_⟩
        intro p hp
        rcases List.mem_append.mp hp with hp | hp
        · exact hct' p hp
        · simp only [List.mem_singleton] at hp
          subst hp
          exact Nat.lt_succ_self _

theorem tagsWF_foldl {c : Nat} :
    ∀ (L : List String) (s : St), TagsWF s → TagsWF (L.foldl (upsertStep c) s)
  | [], _, h => h
  | m :: L', s, h => tagsWF_foldl L' _ (tagsWF_upsertStep m h)

theorem tagsWF_delete {c : Nat} {s : St} (h : TagsWF s) :
    TagsWF { s with contract_tags := s.contract_tags.filter (fun p => !(p.fst == c)) } := by
  rcases h with ⟨hnd, hbound, hct⟩
  exact ⟨hnd, hbound, fun p hp => hct p (List.mem_of_mem_filter hp)⟩

theorem tagsWF_upsert_tags {c : Nat} {s : St} (L : List String) (h : TagsWF s) :
    TagsWF (upsert_tags c L s) :=
  tagsWF_foldl L _ (tagsWF_delete h)

theorem mem_joinNames {n : String} {c : Nat} {s : St} :
    n ∈ joinNames c s ↔
      ∃ p ∈ s.contract_tags, p.fst = c ∧ ∃ t ∈ s.tags, t.id = p.snd ∧ t.name = n := by
  simp only [joinNames, List.mem_flatMap, List.mem_filter, List.mem_map, beq_iff_eq]
  constructor
  · rintro ⟨p, ⟨hp, hpc⟩, t, ⟨ht, hid⟩, hname⟩
    exact ⟨p, hp, hpc, t, ht, hid, hname⟩
  · rintro ⟨p, hp, hpc, t, ht, hid, hname⟩
    exact ⟨p, ⟨hp, hpc⟩, t, ⟨ht, hid⟩, hname⟩

theorem mem_joinNames_upsertStep {n : String} {c : Nat} {s : St} {name : String}
    (h : TagsWF s) :
    n ∈ joinNames c (upsertStep c s name) ↔
      n ∈ joinNames c s ∨ (pyStrip name ≠ "" ∧ n = pyStrip name) := by
  rcases h with ⟨hnd, hbound, hct⟩
  by_cases h1 : pyStrip name = ""
  · simp [upsertStep, h1]
  · unfold upsertStep
    rw [if_neg h1]
    by_cases h2 : s.tags.any (fun t => t.name == pyStrip name) = true
    · simp only [h2, if_true]
      have hsome : (s.tags.find? (fun t => t.name == pyStrip name)).isSome := by
        rw [List.find?_isSome]
        exact List.any_eq_true.mp h2
      rcases Option.isSome_iff_exists.mp hsome with ⟨t0, hfind⟩
      rw [hfind]
      simp only [Option.getD_some]
      have ht0mem : t0 ∈ s.tags := List.mem_of_find?_eq_some hfind
      have ht0name : t0.name = pyStrip name := by
        have := List.find?_some hfind
        simpa using this
      split
      · next hcont =>
        have hmem : (c, t0.id) ∈ s.contract_tags := by
          simpa [List.contains, List.elem_iff] using hcont
        constructor
        · exact Or.inl
        · rintro (hn | ⟨-, rfl⟩)
          · exact hn
          · exact mem_joinNames.mpr ⟨(c, t0.id), hmem, rfl, t0, ht0mem, rfl, ht0name⟩
      · constructor
        · intro hn
          rcases mem_joinNames.mp hn with ⟨p, hp, hpc, t, ht, hid, hname⟩
          rcases List.mem_append.mp hp with hp' | hp'
          · exact Or.inl (mem_joinNames.mpr ⟨p, hp', hpc, t, ht, hid, hname⟩)
          · simp only [List.mem_singleton] at hp'
            subst hp'
            refine Or.inr ⟨h1, ?_⟩
            have : t = t0 := List.inj_on_of_nodup_map hnd ht ht0mem (by
              simpa using hid)
            rw [← hname, this, ht0name]
        · rintro (hn | ⟨-, rfl⟩)
          · rcases mem_joinNames.mp hn with ⟨p, hp, hpc, t, ht, hid, hname⟩
            exact mem_joinNames.mpr ⟨p, List.mem_append_left _ hp, hpc, t, ht, hid, hname⟩
          · exact mem_joinNames.mpr ⟨(c, t0.id), List.mem_append_right _ (by simp),
              rfl, t0, ht0mem, rfl, ht0name⟩
    · simp only [h2, Bool.false_eq_true, if_false]
      have hnone : s.tags.find? (fun t => t.name == pyStrip name) = none := by
        rw [List.find?_eq_none]
        intro t ht hp
        exact h2 (List.any_eq_true.mpr ⟨t, ht, hp⟩)
      have hfind : (s.tags ++ [(⟨s.nextTagId, pyStrip name⟩ : Tag)]).find?
          (fun t : Tag => t.name == pyStrip name) = some ⟨s.nextTagId, pyStrip name⟩ := by
        rw [List.find?_append, hnone, Option.none_or]
        exact List.find?_cons_of_pos _ (by simp)
      rw [hfind]
      simp only [Option.getD_some]
      have hnotmem : ((c, s.nextTagId) : Nat × Nat) ∉ s.contract_tags := by
        intro hc
        exact absurd (hct _ hc) (Nat.lt_irrefl _)
      rw [if_neg (by simpa [List.contains, List.elem_iff] using hnotmem)]
      constructor
      · intro hn
        rcases mem_joinNames.mp hn with ⟨p, hp, hpc, t, ht, hid, hname⟩
        rcases List.mem_append.mp hp with hp' | hp'
        · rcases List.mem_append.mp ht with ht' | ht'
          · exact Or.inl (mem_joinNames.mpr ⟨p, hp', hpc, t, ht', hid, hname⟩)
          · exfalso
            simp only [List.mem_singleton] at ht'
            subst ht'
            have := hct p hp'
            simp only at hid
            omega
        · simp only [List.mem_singleton] at hp'
          subst hp'
          rcases List.mem_append.mp ht with ht' | ht'
          · exfalso
            have := hbound t ht'
            simp only at hid
            omega
          · simp only [List.mem_singleton] at ht'
            subst ht'
            exact Or.inr ⟨h1, hname.symm⟩
      · rintro (hn | ⟨-, rfl⟩)
        · rcases mem_joinNames.mp hn with ⟨p, hp, hpc, t, ht, hid, hname⟩
          exact mem_joinNames.mpr ⟨p, List.mem_append_left _ hp, hpc, t,
            List.mem_append_left _ ht, hid, hname⟩
        · exact mem_joinNames.mpr ⟨(c, s.nextTagId), List.mem_append_right _ (by simp),
            rfl, ⟨s.nextTagId, pyStrip name⟩, List.mem_append_right _ (by simp), rfl, rfl⟩

theorem mem_joinNames_foldl {c : Nat} :
    ∀ (L : List String) (s : St), TagsWF s → ∀ n,
      (n ∈ joinNames c (L.foldl (upsertStep c) s) ↔
        n ∈ cleanedList L ∨ n ∈ joinNames c s) := by
  intro L
  induction L with
  | nil =>
    intro s _ n
    simp [cleanedList]
  | cons name L' ih =>
    intro s hwf n
    simp only [List.foldl_cons]
    rw [ih (upsertStep c s name) (tagsWF_upsertStep name hwf) n,
      mem_joinNames_upsertStep hwf, mem_cleanedList_cons]
    tauto

theorem joinNames_delete (c : Nat) (s : St) :
    joinNames c { s with contract_tags := s.contract_tags.filter (fun p => !(p.fst == c)) }
      = [] := by
  unfold joinNames
  simp only [List.filter_filter]
  have : ∀ p : Nat × Nat, ((p.fst == c) && !(p.fst == c)) = false := by
    intro p
    by_cases h : p.fst = c <;> simp [h]
  rw [List.filter_congr (fun p _ => this p)]
  simp [List.filter_false]

theorem mem_joinNames_upsert_tags {n : String} {c : Nat} {s : St} {L : List String}
    (h : TagsWF s) :
    n ∈ joinNames c (upsert_tags c L s) ↔ n ∈ cleanedList L := by
  unfold upsert_tags
  rw [mem_joinNames_foldl L _ (tagsWF_delete h) n, joinNames_delete]
  simp

theorem mem_get_contract_tags {n : String} {c : Nat} {s : St} :
    n ∈ get_contract_tags c s ↔ n ∈ joinNames c s :=
  mem_sortByLe

theorem tagNames_upsertStep_mono {n : String} {c : Nat} {s : St} (name : String)
    (h : n ∈ tagNames s) : n ∈ tagNames (upsertStep c s name) := by
  rcases upsertStep_tags_ext c s name with ⟨ext, hext⟩
  unfold tagNames at h ⊢
  rw [hext, List.map_append]
  exact List.mem_append_left _ h

theorem tagNames_foldl_mono {n : String} {c : Nat} :
    ∀ (L : List String) (s : St), n ∈ tagNames s → n ∈ tagNames (L.foldl (upsertStep c) s)
  | [], _, h => h
  | m :: L', s, h => tagNames_foldl_mono L' _ (tagNames_upsertStep_mono m h)

theorem tagNames_upsert_tags_mono {n : String} {c : Nat} {s : St} (L : List String)
    (h : n ∈ tagNames s) : n ∈ tagNames (upsert_tags c L s) :=
  tagNames_foldl_mono L _ h

theorem cleaned_mem_tagNames_upsert_tags {n : String} {c : Nat} {s : St} {L : List String}
    (h : n ∈ cleanedList L) : n ∈ tagNames (upsert_tags c L s) := by
  rcases mem_cleanedList.mp h with ⟨name, hname, hstrip, hne⟩
  have hsettled := settled_all_foldl c L
    { s with contract_tags := s.contract_tags.filter (fun p => !(p.fst == c)) } name hname
  rcases hsettled with hs | ⟨t, hfind, -⟩
  · exact absurd (hstrip ▸ hs) hne
  · have hmem := List.mem_of_find?_eq_some hfind
    have hp := List.find?_some hfind
    have : t.name = pyStrip name := by simpa using hp
    unfold upsert_tags
    exact List.mem_map.mpr ⟨t, hmem, by rw [this, hstrip]⟩

/-! ## File-store and upload lemmas -/

theorem lookupFile_cons_self (files : List (String × List Nat)) (p : String) (b : List Nat) :
    lookupFile ((p, b) :: files) p = some b := by
  unfold lookupFile
  rw [List.find?_cons_of_pos _ (by simp)]
  rfl

theorem lookupFile_cons_ne (files : List (String × List Nat)) {p q : String} (b : List Nat)
    (h : p ≠ q) : lookupFile ((p, b) :: files) q = lookupFile files q := by
  unfold lookupFile
  rw [List.find?_cons_of_neg _ (by simp [h])]

theorem string_append_cancel {pre a b : String} (h : pre ++ a = pre ++ b) : a = b := by
  have hd := congrArg String.data h
  simp only [String.data_append] at hd
  exact congrArg String.mk (List.append_cancel_left hd)

theorem document_new_documents (c : Nat) (f : String) (b : List Nat) (a dts ats : String)
    (s : St) :
    (document_new c f b a dts ats s).documents =
      s.documents ++ [⟨s.nextDocId, c, f, storedName c (uploadRead c s) f,
        uploadRead c s, dts, sha256hex b⟩] := by
  simp only [document_new, uploadInsert, record_audit, lookupFile_cons_self, Option.getD_some]

theorem document_new_audits (c : Nat) (f : String) (b : List Nat) (a dts ats : String)
    (s : St) :
    (document_new c f b a dts ats s).audit_events =
      s.audit_events ++ [⟨s.nextAuditId, some c, "Uploaded document", a, ats,
        "Document " ++ f ++ " v" ++ natRepr (uploadRead c s)⟩] := by
  simp only [document_new, uploadInsert, record_audit]

theorem document_new_files (c : Nat) (f : String) (b : List Nat) (a dts ats : String)
    (s : St) :
    (document_new c f b a dts ats s).files =
      (UPLOAD_FOLDER ++ "/" ++ storedName c (uploadRead c s) f, b) :: s.files := by
  simp only [document_new, uploadInsert, record_audit]

/-! ## Version lemmas -/

theorem versionsFor_append (c : Nat) (l₁ l₂ : List Doc) :
    versionsFor c (l₁ ++ l₂) = versionsFor c l₁ ++ versionsFor c l₂ := by
  simp [versionsFor, List.filter_append]

theorem versionsFor_singleton_pos {c : Nat} {d : Doc} (h : d.contract_id = c) :
    versionsFor c [d] = [d.version] := by
  simp [versionsFor, h]

theorem versionsFor_singleton_neg {c : Nat} {d : Doc} (h : d.contract_id ≠ c) :
    versionsFor c [d] = [] := by
  simp [versionsFor, h]

theorem version_mem_versionsFor {d : Doc} {docs : List Doc} (h : d ∈ docs) :
    d.version ∈ versionsFor d.contract_id docs :=
  List.mem_map.mpr ⟨d, List.mem_filter.mpr ⟨h, by simp⟩, rfl⟩

theorem version_le_maxVersion {d : Doc} {docs : List Doc} (h : d ∈ docs) :
    d.version ≤ maxVersion d.contract_id docs :=
  le_foldl_max (Or.inl (version_mem_versionsFor h))

theorem runUploads_versions (c : Nat) :
    ∀ (ups : List UploadReq) (s : St) (k : Nat),
      versionsFor c s.documents = List.range' 1 k →
      versionsFor c (runUploads ups s).documents =
        List.range' 1 (k + (ups.filter (fun u => u.contract_id == c)).length) := by
  intro ups
  induction ups with
  | nil => intro s k h; simpa using h
  | cons u rest ih =>
    intro s k h
    show versionsFor c (runUploads rest
      (document_new u.contract_id u.filename u.content u.actor u.ts u.ats s)).documents = _
    by_cases hc : u.contract_id = c
    · have hmax : maxVersion c s.documents = k := by
        rw [maxVersion, h]; exact foldl_max_range' k
      have hvers : versionsFor c
          (document_new u.contract_id u.filename u.content u.actor u.ts u.ats s).documents =
          List.range' 1 (k + 1) := by
        rw [document_new_documents, versionsFor_append, h,
          versionsFor_singleton_pos (by simpa using hc)]
        rw [List.range'_concat]
        simp only [uploadRead, hc, hmax]
        congr 1
        simp
        omega
      rw [ih _ (k + 1) hvers]
      congr 1
      rw [List.filter_cons]
      simp only [hc, beq_self_eq_true, if_true, List.length_cons]
      omega
    · have hvers : versionsFor c
          (document_new u.contract_id u.filename u.content u.actor u.ts u.ats s).documents =
          List.range' 1 k := by
        rw [document_new_documents, versionsFor_append, h,
          versionsFor_singleton_neg (by simpa using hc)]
        simp
      rw [ih _ k hvers]
      congr 2
      rw [List.filter_cons]
      simp [hc]

/-! ## Audit counting lemmas -/

theorem record_audit_audits (cid : Option Nat) (action actor ts details : String) (s : St) :
    (record_audit cid action actor ts details s).audit_events.length =
      s.audit_events.length + 1 := by
  simp [record_audit]

theorem upsert_tags_audits (c : Nat) (L : List String) (s : St) :
    (upsert_tags c L s).audit_events = s.audit_events := by
  unfold upsert_tags
  have : ∀ (M : List String) (t : St), (M.foldl (upsertStep c) t).audit_events =
      t.audit_events := by
    intro M
    induction M with
    | nil => intro t; rfl
    | cons m M' ihm =>
      intro t
      rw [List.foldl_cons, ihm, (upsertStep_fixed c t m).2.1]
  rw [this]

theorem upsert_tags_documents (c : Nat) (L : List String) (s : St) :
    (upsert_tags c L s).documents = s.documents := by
  unfold upsert_tags
  have : ∀ (M : List String) (t : St), (M.foldl (upsertStep c) t).documents =
      t.documents := by
    intro M
    induction M with
    | nil => intro t; rfl
    | cons m M' ihm =>
      intro t
      rw [List.foldl_cons, ihm, (upsertStep_fixed c t m).1]
  rw [this]

theorem upsert_tags_files (c : Nat) (L : List String) (s : St) :
    (upsert_tags c L s).files = s.files := by
  unfold upsert_tags
  have : ∀ (M : List String) (t : St), (M.foldl (upsertStep c) t).files = t.files := by
    intro M
    induction M with
    | nil => intro t; rfl
    | cons m M' ihm =>
      intro t
      rw [List.foldl_cons, ihm, (upsertStep_fixed c t m).2.2.1]
  rw [this]

theorem applyMut_audits (op : MutOp) (s : St) :
    (applyMut op s).audit_events.length = s.audit_events.length + 1 := by
  cases op with
  | uploadDoc c f b a dts ats =>
    show (document_new c f b a dts ats s).audit_events.length = _
    rw [document_new_audits]
    simp
  | contractNew t v o st ed td npd ri sv tr a ts =>
    show (contract_new t v o st ed td npd ri sv tr a ts s).audit_events.length = _
    unfold contract_new
    rw [record_audit_audits, upsert_tags_audits]
  | contractEdit cid t v o st ed td npd ri sv tr a ts =>
    show (contract_edit cid t v o st ed td npd ri sv tr a ts s).audit_events.length = _
    unfold contract_edit
    rw [record_audit_audits, upsert_tags_audits]
  | vendorNew n rp stt a ts =>
    show (vendor_new n rp stt a ts s).audit_events.length = _
    unfold vendor_new
    rw [record_audit_audits]
  | vendorEdit vid n rp stt a ts =>
    show (vendor_edit vid n rp stt a ts s).audit_events.length = _
    unfold vendor_edit
    rw [record_audit_audits]

theorem runMutOps_audits :
    ∀ (ops : List MutOp) (s : St),
      (runMutOps ops s).audit_events.length = s.audit_events.length + ops.length := by
  intro ops
  induction ops with
  | nil => intro s; rfl
  | cons op rest ih =>
    intro s
    show (runMutOps rest (applyMut op s)).audit_events.length = _
    rw [ih, applyMut_audits]
    simp only [List.length_cons]
    omega

theorem applyMut_documents_files (op : MutOp) (s : St)
    (h : ∀ c f b a dts ats, op ≠ .uploadDoc c f b a dts ats) :
    (applyMut op s).documents = s.documents ∧ (applyMut op s).files = s.files := by
  cases op with
  | uploadDoc c f b a dts ats => exact absurd rfl (h c f b a dts ats)
  | contractNew t v o st ed td npd ri sv tr a ts =>
    exact ⟨upsert_tags_documents _ _ _, upsert_tags_files _ _ _⟩
  | contractEdit cid t v o st ed td npd ri sv tr a ts =>
    exact ⟨upsert_tags_documents _ _ _, upsert_tags_files _ _ _⟩
  | vendorNew n rp stt a ts => exact ⟨rfl, rfl⟩
  | vendorEdit vid n rp stt a ts => exact ⟨rfl, rfl⟩

/-! ## Hash output length -/

theorem compressChunk_length (H chunk : List Nat) : (compressChunk H chunk).length = 8 := rfl

theorem sha256Words_length (msg : List Nat) : (sha256Words msg).length = 8 := by
  unfold sha256Words
  have : ∀ (cs : List (List Nat)) (H : List Nat), H.length = 8 →
      (cs.foldl compressChunk H).length = 8 := by
    intro cs
    induction cs with
    | nil => intro H h; exact h
    | cons ch cs' ih => intro H h; exact ih _ (compressChunk_length H ch)
  exact this _ H256 rfl

theorem sha256hex_length (msg : List Nat) : (sha256hex msg).length = 64 := by
  show (((sha256Words msg).map hex8).flatten).length = 64
  rw [List.length_flatten, List.map_map]
  have hcongr : (sha256Words msg).map (List.length ∘ hex8) =
      (sha256Words msg).map (fun _ => 8) :=
    List.map_congr_left (fun w _ => by simp [hex8])
  rw [hcongr, List.map_const', List.sum_replicate, sha256Words_length]
  rfl

/-! ## Sorted audit listing -/

theorem pairwise_sortByLe {le : α → α → Bool}
    (total : ∀ a b, le a b = true ∨ le b a = true)
    (tr : ∀ a b c, le a b = true → le b c = true → le a c = true) :
    ∀ l : List α, (sortByLe le l).Pairwise (fun a b => le a b = true)
  | [] => by simp [sortByLe]
  | x :: xs => pairwise_insertLe total tr (pairwise_sortByLe total tr xs)

theorem sortAuditDesc_valid (evs : List AuditEvent) :
    auditOrderValid evs (sortAuditDesc evs) := by
  have htotal : ∀ a b : AuditEvent, strLeB b.created_at a.created_at = true ∨
      strLeB a.created_at b.created_at = true :=
    fun a b => strLeB_total b.created_at a.created_at
  have htr : ∀ a b c : AuditEvent, strLeB b.created_at a.created_at = true →
      strLeB c.created_at b.created_at = true → strLeB c.created_at a.created_at = true :=
    fun _ _ _ h1 h2 => strLeB_trans h2 h1
  exact ⟨perm_sortByLe _ evs, pairwise_sortByLe htotal htr evs⟩

/-! ## The document-store invariant -/

/-- Invariant of reachable states: every `documents` row carries its derived
storage name (built from a separator-free sanitized filename), and the upload
directory holds, at that name, bytes whose digest is the recorded `sha256`. -/
def DocsInv (s : St) : Prop :=
  ∀ d ∈ s.documents,
    d.storage_path = storedName d.contract_id d.version d.filename ∧
      ('/' : Char) ∉ d.filename.data ∧
      ∃ b, lookupFile s.files (UPLOAD_FOLDER ++ "/" ++ d.storage_path) = some b ∧
        sha256hex b = d.sha256

theorem docsInv_of_unchanged {s s' : St} (hdocs : s'.documents = s.documents)
    (hfiles : s'.files = s.files) (h : DocsInv s) : DocsInv s' := by
  intro d hd
  rw [hdocs] at hd
  rcases h d hd with ⟨hsp, hsl, b, hlook, hsha⟩
  exact ⟨hsp, hsl, b, by rw [hfiles]; exact hlook, hsha⟩

theorem docsInv_document_new {s : St} (c : Nat) (f : String) (b : List Nat)
    (a dts ats : String) (hf : ('/' : Char) ∉ f.data) (h : DocsInv s) :
    DocsInv (document_new c f b a dts ats s) := by
  intro d hd
  rw [document_new_documents] at hd
  rw [document_new_files]
  rcases List.mem_append.mp hd with hold | hnew
  · rcases h d hold with ⟨hsp, hsl, bb, hlook, hsha⟩
    refine ⟨hsp, hsl, bb, ?_, hsha⟩
    rw [lookupFile_cons_ne _ _ ?_]
    · exact hlook
    · intro hpath
      have hsn : storedName c (uploadRead c s) f = d.storage_path :=
        string_append_cancel hpath
      rw [hsp] at hsn
      rcases storedName_inj hsn with ⟨hc, hv, -⟩
      have hle : d.version ≤ maxVersion d.contract_id s.documents :=
        version_le_maxVersion hold
      rw [← hc] at hle
      rw [uploadRead] at hv
      omega
  · simp only [List.mem_singleton] at hnew
    subst hnew
    exact ⟨rfl, hf, b, lookupFile_cons_self _ _ _, rfl⟩

theorem reach_docsInv {s : St} (h : Reach s) : DocsInv s := by
  induction h with
  | init => intro d hd; cases hd
  | step s op hr hok ih =>
    cases op with
    | uploadDoc c f b a dts ats =>
      exact docsInv_document_new c f b a dts ats hok ih
    | contractNew t v o st ed td npd ri sv tr a ts =>
      have hdf := applyMut_documents_files (.contractNew t v o st ed td npd ri sv tr a ts)
        s (fun _ _ _ _ _ _ h => MutOp.noConfusion h)
      exact docsInv_of_unchanged hdf.1 hdf.2 ih
    | contractEdit cid t v o st ed td npd ri sv tr a ts =>
      have hdf := applyMut_documents_files
        (.contractEdit cid t v o st ed td npd ri sv tr a ts) s
        (fun _ _ _ _ _ _ h => MutOp.noConfusion h)
      exact docsInv_of_unchanged hdf.1 hdf.2 ih
    | vendorNew n rp stt a ts =>
      have hdf := applyMut_documents_files (.vendorNew n rp stt a ts) s
        (fun _ _ _ _ _ _ h => MutOp.noConfusion h)
      exact docsInv_of_unchanged hdf.1 hdf.2 ih
    | vendorEdit vid n rp stt a ts =>
      have hdf := applyMut_documents_files (.vendorEdit vid n rp stt a ts) s
        (fun _ _ _ _ _ _ h => MutOp.noConfusion h)
      exact docsInv_of_unchanged hdf.1 hdf.2 ih

theorem slash_not_mem_storedName {c v : Nat} {f : String} (hf : ('/' : Char) ∉ f.data) :
    ('/' : Char) ∉ (storedName c v f).data := by
  rw [storedName_data]
  intro hmem
  rcases List.mem_append.mp hmem with h | h
  · exact slash_not_mem_natDecimal h
  · rcases List.mem_cons.mp h with h | h
    · exact absurd h (by decide)
    · rcases List.mem_append.mp h with h | h
      · exact slash_not_mem_natDecimal h
      · rcases List.mem_cons.mp h with h | h
        · exact absurd h (by decide)
        · exact hf h

theorem safe_join_storedName {c v : Nat} {f : String} (hf : ('/' : Char) ∉ f.data) :
    safe_join UPLOAD_FOLDER (storedName c v f) =
      some (UPLOAD_FOLDER ++ "/" ++ storedName c v f) := by
  have hl := slash_not_mem_storedName (c := c) (v := v) hf
  have hund : ('_' : Char) ∈ (storedName c v f).data := by
    rw [storedName_data]
    exact List.mem_append_right _ (List.mem_cons_self _ _)
  have hne : (storedName c v f).data ≠ [] := by
    intro h
    rw [h] at hund
    cases hund
  have hdot : (storedName c v f).data ≠ ['.'] := by
    intro h
    rw [h] at hund
    exact absurd (List.mem_singleton.mp hund) (by decide)
  have hdd : (storedName c v f).data ≠ ['.', '.'] := by
    intro h
    rw [h] at hund
    rcases List.mem_cons.mp hund with h' | h'
    · exact absurd h' (by decide)
    · exact absurd (List.mem_singleton.mp h') (by decide)
  unfold safe_join
  rw [safeJoinL_flat hl hne hdot hdd]
  refine congrArg some (congrArg String.mk ?_)
  show UPLOAD_FOLDER.data ++ '/' :: (storedName c v f).data =
    (UPLOAD_FOLDER ++ "/" ++ storedName c v f).data
  rw [String.data_append, String.data_append,
    show ("/" : String).data = ['/'] from rfl]
  simp

/-! ## Claim theorems -/

/-- C1: for every contract starting with no documents, a sequence of
sequential `document_new` uploads (any filenames, collisions included) records
for that contract exactly the versions `1..N` in upload order, `N` being the
number of uploads addressed to it — no gaps, no duplicates. -/
theorem C1_sequential_versions_gapless (ups : List UploadReq) (c : Nat) (s0 : St)
    (h : versionsFor c s0.documents = []) :
    versionsFor c (runUploads ups s0).documents =
      List.range' 1 ((ups.filter (fun u => u.contract_id == c)).length) := by
  have := runUploads_versions c ups s0 0 (by simpa using h)
  simpa using this

/-- Witness for C1: two uploads with the same filename to contract 1 starting
from the fresh database yield versions exactly `[1, 2]`. -/
theorem C1_sequential_versions_gapless_witness :
    versionsFor 1 (runUploads
      [⟨1, "msa.pdf", [97, 98, 99], "alice", "2026-01-01T00:00:00", "2026-01-01T00:00:00"⟩,
       ⟨1, "msa.pdf", [100], "bob", "2026-01-01T00:00:01", "2026-01-01T00:00:01"⟩]
      initSt).documents =
      List.range' 1 ((([⟨1, "msa.pdf", [97, 98, 99], "alice", "2026-01-01T00:00:00",
          "2026-01-01T00:00:00"⟩,
        ⟨1, "msa.pdf", [100], "bob", "2026-01-01T00:00:01", "2026-01-01T00:00:01"⟩] :
          List UploadReq).filter (fun u => u.contract_id == 1)).length) :=
  C1_sequential_versions_gapless _ 1 initSt (by decide)

/-- The state after caller A has read the next version for contract 1 (getting
1, since no documents exist) and completed its insert. -/
def raceMid : St :=
  uploadInsert 1 "a.pdf" [97] "alice" "2026-01-01T00:00:00" "2026-01-01T00:00:00"
    (uploadRead 1 initSt) initSt

/-- The state after caller B, which had read its version from the same initial
state before A inserted, also completes its insert. -/
def raceFinal : St :=
  uploadInsert 1 "b.pdf" [100] "bob" "2026-01-01T00:00:00" "2026-01-01T00:00:00"
    (uploadRead 1 initSt) raceMid

/-- C2 (violated by the code): `document_new` is exactly a version read
followed by the write phase, in separate database connections; when two
callers for contract 1 both perform the read before either insert, the final
state holds two documents for the contract both carrying version 1 — the
read-compute-insert sequence is not serialized and duplicate versions occur. -/
theorem C2_interleaved_uploads_duplicate_version :
    (document_new 1 "a.pdf" [97] "alice" "2026-01-01T00:00:00" "2026-01-01T00:00:00" initSt =
      uploadInsert 1 "a.pdf" [97] "alice" "2026-01-01T00:00:00" "2026-01-01T00:00:00"
        (uploadRead 1 initSt) initSt) ∧
    versionsFor 1 raceFinal.documents = [1, 1] ∧
    ¬ (versionsFor 1 raceFinal.documents).Nodup := by
  exact ⟨rfl, by decide, by decide⟩

/-- C3: on every reachable state, recomputing the SHA-256 digest over the
bytes that `document_download` returns for a document's storage name yields
exactly the recorded 64-character hexadecimal `sha256` field. -/
theorem C3_download_hash_integrity (s : St) (hr : Reach s) :
    ∀ d ∈ s.documents,
      (document_download s d.storage_path).map sha256hex = some d.sha256 ∧
        d.sha256.length = 64 := by
  intro d hd
  rcases reach_docsInv hr d hd with ⟨hsp, hsl, b, hlook, hsha⟩
  constructor
  · unfold document_download
    rw [hsp] at hlook ⊢
    rw [safe_join_storedName hsl]
    simp [hlook, hsha]
  · rw [← hsha]
    exact sha256hex_length b

/-- The state after uploading the bytes of `"abc"` as `msa.pdf` to contract 1. -/
def c3St : St :=
  applyMut (.uploadDoc 1 "msa.pdf" [97, 98, 99] "alice" "2026-01-01T00:00:00"
    "2026-01-01T00:00:00") initSt

/-- The document row produced by that upload; its hash is the SHA-256 digest
of the bytes `"abc"`. -/
def c3Doc : Doc :=
  ⟨1, 1, "msa.pdf", "1_1_msa.pdf", 1, "2026-01-01T00:00:00",
    "ba7816bf8f01cfea414140de5dae2223b00361a396177a9cb410ff61f20015ad"⟩

/-- Witness for C3 at a concrete upload of the bytes `"abc"`. -/
theorem C3_download_hash_integrity_witness :
    (document_download c3St c3Doc.storage_path).map sha256hex = some c3Doc.sha256 ∧
      c3Doc.sha256.length = 64 :=
  C3_download_hash_integrity c3St
    (Reach.step initSt _ Reach.init (by decide)) c3Doc (by decide)

/-- C4 (violated by the code): cutting the upload after its fourth step — the
`documents` insert committed by its own connection — models a failure of the
audit insert; the Document row is then persisted while no audit event is,
so a failed upload is not all-or-nothing.  Failures at steps 1–3 (version
read, file write, hashing) do leave both tables untouched, and the full
five-step run is exactly `document_new`. -/
theorem C4_audit_failure_leaves_document :
    ((document_new_upto 4 1 "msa.pdf" [97, 98, 99] "alice" "2026-01-01T00:00:00"
        "2026-01-01T00:00:00" initSt).documents.length = initSt.documents.length + 1) ∧
    ((document_new_upto 4 1 "msa.pdf" [97, 98, 99] "alice" "2026-01-01T00:00:00"
        "2026-01-01T00:00:00" initSt).audit_events = initSt.audit_events) ∧
    ((document_new_upto 1 1 "msa.pdf" [97, 98, 99] "alice" "2026-01-01T00:00:00"
        "2026-01-01T00:00:00" initSt).documents = initSt.documents) ∧
    ((document_new_upto 2 1 "msa.pdf" [97, 98, 99] "alice" "2026-01-01T00:00:00"
        "2026-01-01T00:00:00" initSt).documents = initSt.documents) ∧
    ((document_new_upto 3 1 "msa.pdf" [97, 98, 99] "alice" "2026-01-01T00:00:00"
        "2026-01-01T00:00:00" initSt).documents = initSt.documents) ∧
    ((document_new_upto 3 1 "msa.pdf" [97, 98, 99] "alice" "2026-01-01T00:00:00"
        "2026-01-01T00:00:00" initSt).audit_events = initSt.audit_events) ∧
    (document_new_upto 5 1 "msa.pdf" [97, 98, 99] "alice" "2026-01-01T00:00:00"
        "2026-01-01T00:00:00" initSt =
      document_new 1 "msa.pdf" [97, 98, 99] "alice" "2026-01-01T00:00:00"
        "2026-01-01T00:00:00" initSt) := by
  refine ⟨by decide, by decide, by decide, by decide, by decide, by decide, by decide⟩

/-- C5 counterexample: the requested name `"a/b"` contains a path separator
yet `safe_join` does not reject it — it resolves it as a subpath of the
upload root. -/
theorem C5_separator_name_not_rejected :
    (("a/b" : String).data.contains '/') = true ∧
    safe_join UPLOAD_FOLDER "a/b" = some ("uploads/a/b" : String) := by
  exact ⟨by decide, by decide⟩

/-- C5 amended: every name `safe_join` accepts resolves inside the upload
root — the result is the root extended by the normalized suffix, which is
relative and free of `".."` components; any other name yields a rejection. -/
theorem C5_accepted_names_stay_in_root (name p : String)
    (h : safe_join UPLOAD_FOLDER name = some p) :
    p.data = UPLOAD_FOLDER.data ++ '/' :: normSuffix name ∧
      isAbsL (normSuffix name) = false ∧
      (splitChar '/' (normSuffix name)).all (fun comp => !(comp == ['.', '.'])) = true := by
  unfold safe_join at h
  rcases Option.map_eq_some'.mp h with ⟨l, hl, hp⟩
  rcases safeJoinL_eq_some hl with ⟨hres, habs, hcomps⟩
  refine ⟨?_, habs, ?_⟩
  · rw [← hp, hres]
    rfl
  · rw [List.all_eq_true]
    intro comp hcomp
    simpa using hcomps comp hcomp

/-- Witness for the amended C5 at the flat name `"a.pdf"`. -/
theorem C5_accepted_names_stay_in_root_witness :
    ("uploads/a.pdf" : String).data = UPLOAD_FOLDER.data ++ '/' :: normSuffix "a.pdf" ∧
      isAbsL (normSuffix "a.pdf") = false ∧
      (splitChar '/' (normSuffix "a.pdf")).all (fun comp => !(comp == ['.', '.'])) = true :=
  C5_accepted_names_stay_in_root "a.pdf" "uploads/a.pdf" (by decide)

/-- C6: tag replacement is full, not a merge — after `upsert_tags c L1` then
`upsert_tags c L2`, the names associated with `c` are exactly the normalized
names of `L2`, while every normalized name of `L1` is still in the
vocabulary. -/
theorem C6_setTags_full_replacement (s : St) (hwf : TagsWF s) (c : Nat)
    (L1 L2 : List String) (n : String) :
    (n ∈ get_contract_tags c (upsert_tags c L2 (upsert_tags c L1 s)) ↔
      n ∈ cleanedList L2) ∧
    (n ∈ cleanedList L1 → n ∈ tagNames (upsert_tags c L2 (upsert_tags c L1 s))) := by
  constructor
  · rw [mem_get_contract_tags]
    exact mem_joinNames_upsert_tags (tagsWF_upsert_tags L1 hwf)
  · intro hn
    exact tagNames_upsert_tags_mono L2 (cleaned_mem_tagNames_upsert_tags hn)

/-- Witness for C6 with the spec's example: `setTags(c, ["X"])` after
`setTags(c, ["A","B"])`, checked at the name `"A"`. -/
theorem C6_setTags_full_replacement_witness :
    (("A" : String) ∈ get_contract_tags 1 (upsert_tags 1 ["X"] (upsert_tags 1 ["A", "B"]
        initSt)) ↔ "A" ∈ cleanedList ["X"]) ∧
    (("A" : String) ∈ cleanedList ["A", "B"] →
      "A" ∈ tagNames (upsert_tags 1 ["X"] (upsert_tags 1 ["A", "B"] initSt))) :=
  C6_setTags_full_replacement initSt
    ⟨List.nodup_nil, fun t ht => absurd ht (List.not_mem_nil t),
      fun p hp => absurd hp (List.not_mem_nil p)⟩ 1 ["A", "B"] ["X"] "A"

/-- C7: after `upsert_tags c L`, a name is associated with the contract
exactly when it is a stripped, nonempty candidate of `L` — trimming and
empty-dropping are the only normalization, and names are compared
case-sensitively (string equality). -/
theorem C7_setTags_normalization (s : St) (hwf : TagsWF s) (c : Nat) (L : List String)
    (n : String) :
    n ∈ get_contract_tags c (upsert_tags c L s) ↔ n ∈ cleanedList L := by
  rw [mem_get_contract_tags]
  exact mem_joinNames_upsert_tags hwf

/-- Witness for C7 with the spec's example list `["A", " a ", "", "B"]`,
checked at the lower-case name `"a"` (kept distinct from `"A"`). -/
theorem C7_setTags_normalization_witness :
    ("a" : String) ∈ get_contract_tags 1 (upsert_tags 1 ["A", " a ", "", "B"] initSt) ↔
      "a" ∈ cleanedList ["A", " a ", "", "B"] :=
  C7_setTags_normalization initSt
    ⟨List.nodup_nil, fun t ht => absurd ht (List.not_mem_nil t),
      fun p hp => absurd hp (List.not_mem_nil p)⟩ 1 ["A", " a ", "", "B"] "a"

/-- C8 counterexample: a call to `upsert_tags` — the code's `setTags` — adds
no audit event at all, refuting that every `setTags` call produces exactly
one new AuditEvent. -/
theorem C8_setTags_records_no_audit :
    (upsert_tags 1 ["A"] initSt).audit_events.length = initSt.audit_events.length ∧
      initSt.audit_events.length = 0 := by
  exact ⟨by decide, rfl⟩

/-- C8 amended: each mutating request (upload, contract create/update —
which performs the tag replacement internally — vendor create/update)
appends exactly one audit event; a run of `n` requests appends exactly `n`,
so the audit listing never returns fewer events than mutating calls made. -/
theorem C8_one_audit_event_per_mutation (op : MutOp) (ops : List MutOp) (s : St) :
    (applyMut op s).audit_events.length = s.audit_events.length + 1 ∧
    (runMutOps ops s).audit_events.length = s.audit_events.length + ops.length ∧
    ops.length ≤ (sortAuditDesc (runMutOps ops s).audit_events).length := by
  refine ⟨applyMut_audits op s, runMutOps_audits ops s, ?_⟩
  rw [show sortAuditDesc (runMutOps ops s).audit_events =
    sortByLe (fun a b => strLeB b.created_at a.created_at)
      (runMutOps ops s).audit_events from rfl]
  rw [length_sortByLe, runMutOps_audits]
  omega

/-- An audit event recorded at `2026-01-01T00:00:00` with id 1. -/
def ev1 : AuditEvent := ⟨1, some 1, "Created contract", "system", "2026-01-01T00:00:00", ""⟩

/-- A later audit event with the same second-resolution timestamp, id 2. -/
def ev2 : AuditEvent := ⟨2, some 1, "Updated contract", "system", "2026-01-01T00:00:00", ""⟩

/-- C9 counterexample: with two events sharing a `created_at` value, both
orders satisfy everything `ORDER BY created_at DESC` specifies, so the query
does not enforce any id tie-break — the claimed tie-break ordering fails for
one of the two equally valid outputs. -/
theorem C9_no_id_tiebreak :
    auditOrderValid [ev1, ev2] [ev1, ev2] ∧ auditOrderValid [ev1, ev2] [ev2, ev1] ∧
      ev1.created_at = ev2.created_at ∧ ev1.id ≠ ev2.id := by
  refine ⟨⟨List.Perm.refl _, by decide⟩, ⟨List.Perm.swap ev1 ev2 [], by decide⟩, rfl,
    by decide⟩

/-- C9 amended: the audit listing is newest first by `created_at` only — the
executable sort satisfies the query's ordering contract (a permutation of all
events, pairwise nonincreasing `created_at`), both globally and filtered to
one contract; the order among equal timestamps is unspecified. -/
theorem C9_newest_first_by_created_at (evs : List AuditEvent) :
    auditOrderValid evs (sortAuditDesc evs) ∧
      ∀ c : Nat, auditOrderValid (auditFor c evs) (sortAuditDesc (auditFor c evs)) :=
  ⟨sortAuditDesc_valid evs, fun c => sortAuditDesc_valid (auditFor c evs)⟩

/-- C10: a duplicated tag list is absorbed — `upsert_tags c (L ++ L)` leaves
the whole state (vocabulary, associations, counters) identical to
`upsert_tags c L`, because both inserts are `INSERT OR IGNORE`. -/
theorem C10_duplicate_tags_absorbed (c : Nat) (L : List String) (s : St) :
    upsert_tags c (L ++ L) s = upsert_tags c L s := by
  unfold upsert_tags
  rw [List.foldl_append]
  exact foldl_settled_id L _ (settled_all_foldl c L _)

end ContractMgmt
